import Mathlib

/-!
Verification development for the pgvector-backed purchase-invoice search service.

The development shallowly embeds the TypeScript services
(`query-preprocessing.service.ts`, `fuzzy-matching.service.ts`,
`search.service.ts`) into Lean:

* pure string/number processing (regex scanners, stop-word removal,
  Levenshtein distance, the filter-merging and ranking logic) is translated
  directly from the source;
* external collaborators (the chrono-node date parser, the compromise NLP
  entity/money recognizer, the Gemini embedding gateway, the Postgres store
  with its pgvector cosine-distance operator and fuzzystrmatch phonetic
  capability, and the Fuse.js index) are modelled as oracle parameters, as the
  spec treats them: capabilities, not implementations;
* JavaScript numbers are modelled as exact rationals, calendar dates as
  explicit year/month/day triples (month `0`-`11` as produced by
  `Date.getMonth`), and nullable values as `Option`.
-/

namespace PgvectorBackend

/-! ### Generic list helpers -/

/-- First-occurrence deduplication, the model of the JS idiom
`[...new Set(xs)]` used by `extractAmounts`. -/
def dedupFirst : List ℚ → List ℚ :=
  go []
where
  go (seen : List ℚ) : List ℚ → List ℚ
    | [] => []
    | x :: t => if x ∈ seen then go seen t else x :: go (x :: seen) t

theorem mem_dedupFirst_go (l : List ℚ) :
    ∀ (seen : List ℚ) (a : ℚ), a ∈ dedupFirst.go seen l ↔ a ∈ l ∧ a ∉ seen := by
  induction l with
  | nil => intro seen a; simp [dedupFirst.go]
  | cons x t ih =>
    intro seen a
    by_cases hx : x ∈ seen
    · rw [dedupFirst.go, if_pos hx, ih]
      constructor
      · rintro ⟨h1, h2⟩
        exact ⟨List.mem_cons_of_mem _ h1, h2⟩
      · rintro ⟨h1, h2⟩
        rcases List.mem_cons.1 h1 with rfl | h1
        · exact absurd hx h2
        · exact ⟨h1, h2⟩
    · rw [dedupFirst.go, if_neg hx]
      constructor
      · intro h
        rcases List.mem_cons.1 h with rfl | h
        · exact ⟨List.mem_cons_self _ _, hx⟩
        · obtain ⟨h1, h2⟩ := (ih _ _).1 h
          exact ⟨List.mem_cons_of_mem _ h1, fun hs => h2 (List.mem_cons_of_mem _ hs)⟩
      · rintro ⟨h1, h2⟩
        rcases List.mem_cons.1 h1 with rfl | h1
        · exact List.mem_cons_self _ _
        · by_cases hxa : a = x
          · exact hxa ▸ List.mem_cons_self _ _
          · refine List.mem_cons_of_mem _ ((ih _ _).2 ⟨h1, ?_⟩)
            intro hs
            rcases List.mem_cons.1 hs with h | h
            · exact hxa h
            · exact h2 h

theorem mem_dedupFirst (l : List ℚ) (a : ℚ) : a ∈ dedupFirst l ↔ a ∈ l := by
  rw [dedupFirst, mem_dedupFirst_go]
  simp

theorem dedupFirst_eq_nil (l : List ℚ) (h : l = []) : dedupFirst l = [] := by
  subst h; rfl

theorem dedupFirst_ne_nil (l : List ℚ) (h : l ≠ []) : dedupFirst l ≠ [] := by
  intro hd
  rcases l with _ | ⟨x, t⟩
  · exact h rfl
  · have : x ∈ dedupFirst (x :: t) := (mem_dedupFirst _ _).2 (List.mem_cons_self x t)
    rw [hd] at this
    exact List.not_mem_nil x this

theorem dedupFirst_go_all_mem (t : List ℚ) :
    ∀ (s : List ℚ) (x : ℚ), x ∈ s → (∀ y ∈ t, y = x) → dedupFirst.go s t = [] := by
  induction t with
  | nil => intro s x _ _; rfl
  | cons z zs ih =>
    intro s x hs hy
    obtain rfl : z = x := hy z (List.mem_cons_self z zs)
    rw [dedupFirst.go, if_pos hs]
    exact ih s z hs (fun y hyy => hy y (List.mem_cons_of_mem _ hyy))

/-- If every element of a nonempty list equals `a`, its first-occurrence
deduplication is the singleton `[a]`. -/
theorem dedupFirst_all_eq (l : List ℚ) (a : ℚ) (hne : l ≠ [])
    (hall : ∀ x ∈ l, x = a) : dedupFirst l = [a] := by
  rcases l with _ | ⟨x, t⟩
  · exact absurd rfl hne
  · obtain rfl : x = a := hall x (List.mem_cons_self x t)
    show dedupFirst.go [] (x :: t) = [x]
    rw [dedupFirst.go, if_neg (List.not_mem_nil x)]
    rw [dedupFirst_go_all_mem t (x :: []) x (List.mem_cons_self x [])
      (fun y hy => hall y (List.mem_cons_of_mem _ hy))]

/-! ### Character classes (JS regex `\w`, `\s`, `\d`) -/

/-- JS regex `\w`: ASCII letters, digits and underscore. -/
def isWordChar (c : Char) : Bool :=
  c.isAlphanum || c == '_'

/-- JS regex `\s` (restricted to the ASCII whitespace that can realistically
occur in a query string). -/
def isSpaceChar (c : Char) : Bool :=
  c == ' ' || c == '\t' || c == '\n' || c == '\r' || c == '\x0b' || c == '\x0c'

def isDigitChar (c : Char) : Bool :=
  c.isDigit

/-! Character-list implementations of the JS string methods the services
use (`trim`, `toLowerCase`, `toUpperCase`, `join('')`); the core `String`
versions work through byte positions, which the kernel cannot evaluate, so
the embedding uses these evaluable equivalents. -/

def jsTrim (s : String) : String :=
  String.mk (((s.data.dropWhile isSpaceChar).reverse.dropWhile isSpaceChar).reverse)

def jsToLower (s : String) : String :=
  String.mk (s.data.map Char.toLower)

def jsToUpper (s : String) : String :=
  String.mk (s.data.map Char.toUpper)

def jsConcat (l : List String) : String :=
  String.mk (l.flatMap String.data)

/-- Literal prefix match: if `w` is a prefix of `cs`, return the rest. -/
def stripLead : List Char → List Char → Option (List Char)
  | [], cs => some cs
  | _ :: _, [] => none
  | a :: w, c :: cs => if a = c then stripLead w cs else none

/-- Case-insensitive literal prefix match (JS regex `i` flag on an ASCII
word), returning the rest on success. -/
def stripCI : List Char → List Char → Option (List Char)
  | [], cs => some cs
  | _ :: _, [] => none
  | a :: w, c :: cs => if a.toLower = c.toLower then stripCI w cs else none

/-- `leadsWith pat cs` holds when `pat` is a literal prefix of `cs`. -/
def leadsWith : List Char → List Char → Bool
  | [], _ => true
  | _ :: _, [] => false
  | a :: w, c :: cs => a == c && leadsWith w cs

/-- JS `String.prototype.includes`: substring test. -/
def hasSub (pat : List Char) : List Char → Bool
  | [] => leadsWith pat []
  | c :: t => leadsWith pat (c :: t) || hasSub pat t

theorem stripLead_length {w cs rest : List Char} (h : stripLead w cs = some rest) :
    rest.length + w.length = cs.length := by
  induction w generalizing cs with
  | nil => cases h; simp
  | cons a w ih =>
    cases cs with
    | nil => cases h
    | cons c cs =>
      by_cases hac : a = c
      · simp only [stripLead, if_pos hac] at h
        have := ih h
        simp [List.length_cons]
        omega
      · simp [stripLead, if_neg hac] at h

theorem stripCI_length {w cs rest : List Char} (h : stripCI w cs = some rest) :
    rest.length + w.length = cs.length := by
  induction w generalizing cs with
  | nil => cases h; simp
  | cons a w ih =>
    cases cs with
    | nil => cases h
    | cons c cs =>
      by_cases hac : a.toLower = c.toLower
      · simp only [stripCI, if_pos hac] at h
        have := ih h
        simp [List.length_cons]
        omega
      · simp [stripCI, if_neg hac] at h

/-! ### Calendar dates

The services serialize dates as `YYYY-MM-DD` strings (`formatDate`) and the
store compares them chronologically; the embedding keeps them structural.
`month` is the JS `Date.getMonth()` index, `0`-`11`. -/

structure SDate where
  year : Int
  month : Nat
  day : Nat
deriving DecidableEq, Repr

/-- Chronological order on dates (the order the store's date comparison
realizes on `formatDate` output). -/
def SDate.le (a b : SDate) : Prop :=
  a.year < b.year ∨ (a.year = b.year ∧ (a.month < b.month ∨ (a.month = b.month ∧ a.day ≤ b.day)))

instance : DecidableRel SDate.le := fun a b => by
  unfold SDate.le; infer_instance

instance : IsTotal SDate SDate.le :=
  ⟨by intro a b; unfold SDate.le; omega⟩

instance : IsTrans SDate SDate.le :=
  ⟨by intro a b c; unfold SDate.le; omega⟩

theorem SDate.le_refl (a : SDate) : SDate.le a a := by
  unfold SDate.le; omega

/-- Days in a month (proleptic Gregorian, as JS `Date` normalization uses);
month index `0`-`11`. -/
def daysInMonth (y : Int) (m : Nat) : Nat :=
  match m with
  | 1 => if y % 4 = 0 ∧ (y % 100 ≠ 0 ∨ y % 400 = 0) then 29 else 28
  | 3 | 5 | 8 | 10 => 30
  | _ => 31

theorem one_le_daysInMonth (y : Int) (m : Nat) : 1 ≤ daysInMonth y m := by
  unfold daysInMonth
  split <;> first | (split <;> omega) | omega

/-- Normalize a possibly out-of-range month index the way the JS `Date`
constructor does, carrying into the year. -/
def normYM (y : Int) (mi : Int) : Int × Nat :=
  let q := Int.emod mi 12
  (y + (mi - q) / 12, q.toNat)

/-- `new Date(y, mi, 1)` for an integer month index. -/
def monthFirstDay (y : Int) (mi : Int) : SDate :=
  let p := normYM y mi
  ⟨p.1, p.2, 1⟩

/-- `new Date(y, mi, 0)`: day `0` normalizes to the last day of month
`mi - 1`. -/
def dateZero (y : Int) (mi : Int) : SDate :=
  let p := normYM y (mi - 1)
  ⟨p.1, p.2, daysInMonth p.1 p.2⟩

/-- Successor day in the proleptic Gregorian calendar (the effect of JS
`setDate(getDate() + 1)` on a valid date). -/
def SDate.nextDay (d : SDate) : SDate :=
  if d.day < daysInMonth d.year d.month then ⟨d.year, d.month, d.day + 1⟩
  else if d.month < 11 then ⟨d.year, d.month + 1, 1⟩
  else ⟨d.year + 1, 0, 1⟩

/-- Predecessor day (the effect of JS `setDate(getDate() - 1)`). -/
def SDate.prevDay (d : SDate) : SDate :=
  if 1 < d.day then ⟨d.year, d.month, d.day - 1⟩
  else if 0 < d.month then ⟨d.year, d.month - 1, daysInMonth d.year (d.month - 1)⟩
  else ⟨d.year - 1, 11, 31⟩

def addDays (d : SDate) : Nat → SDate
  | 0 => d
  | n + 1 => (addDays d n).nextDay

def subDays (d : SDate) : Nat → SDate
  | 0 => d
  | n + 1 => (subDays d n).prevDay

theorem SDate.le_nextDay (d : SDate) : SDate.le d d.nextDay := by
  obtain ⟨y, m, da⟩ := d
  unfold SDate.nextDay
  dsimp only
  split
  · unfold SDate.le; dsimp only; omega
  · split <;> (unfold SDate.le; dsimp only; omega)

theorem le_addDays (d : SDate) (n : Nat) : SDate.le d (addDays d n) := by
  induction n with
  | zero => exact SDate.le_refl d
  | succ k ih =>
    exact Trans.trans ih (SDate.le_nextDay (addDays d k))

theorem normYM_of_lt (y : Int) (m : Nat) (h : m < 12) : normYM y (m : Int) = (y, m) := by
  show (y + ((m : Int) - Int.emod (m : Int) 12) / 12, (Int.emod (m : Int) 12).toNat) = (y, m)
  have h1 : Int.emod (m : Int) 12 = (m : Int) := Int.emod_eq_of_lt (by omega) (by omega)
  rw [h1]
  simp

/-! ### Sorted-list head/last facts used by the range-policy proofs -/

theorem sortedHeadRel {α : Type} {r : α → α → Prop} (hr : ∀ x, r x x) {a : α} {t : List α}
    (h : List.Sorted r (a :: t)) : ∀ x ∈ a :: t, r a x := by
  intro x hx
  rcases List.mem_cons.1 hx with rfl | hx
  · exact hr x
  · exact (List.sorted_cons.1 h).1 x hx

theorem sortedRelGetLast {α : Type} {r : α → α → Prop} (hr : ∀ x, r x x) :
    ∀ (l : List α) (h : List.Sorted r l) (hne : l ≠ []) (x : α), x ∈ l → r x (l.getLast hne) := by
  intro l
  induction l with
  | nil => intro _ hne; exact absurd rfl hne
  | cons a t ih =>
    intro h hne x hx
    rcases t with _ | ⟨b, t2⟩
    · rcases List.mem_cons.1 hx with rfl | hx
      · exact hr x
      · exact absurd hx (List.not_mem_nil x)
    · rw [List.getLast_cons (List.cons_ne_nil b t2)]
      rcases List.mem_cons.1 hx with rfl | hx
      · exact (List.sorted_cons.1 h).1 _ (List.getLast_mem (List.cons_ne_nil b t2))
      · exact ih (List.sorted_cons.1 h).2 (List.cons_ne_nil b t2) x hx

/-! ### Date-pattern scanners (`extractDates` regexes) -/

def monthNamesIdx : List (List Char × Nat) :=
  [("january".data, 0), ("february".data, 1), ("march".data, 2), ("april".data, 3),
   ("may".data, 4), ("june".data, 5), ("july".data, 6), ("august".data, 7),
   ("september".data, 8), ("october".data, 9), ("november".data, 10), ("december".data, 11)]

/-- JS regex `\b` just after a match whose final character is a word
character: holds when the rest is empty or starts with a non-word char. -/
def wordBoundaryAfter : List Char → Bool
  | [] => true
  | c :: _ => !isWordChar c

/-- Try to read a full month name at the head of `cs` (the alternation
`(january|february|...|december)`), returning its `Date.getMonth` index. -/
def monthAt (cs : List Char) : Option (Nat × List Char) :=
  monthNamesIdx.findSome? fun p =>
    match stripLead p.1 cs with
    | some rest => some (p.2, rest)
    | none => none

theorem monthAt_lt_12 {cs : List Char} {i : Nat} {rest : List Char}
    (h : monthAt cs = some (i, rest)) : i < 12 := by
  unfold monthAt at h
  obtain ⟨l1, p, l2, hsplit, hf, -⟩ := List.findSome?_eq_some_iff.1 h
  have hp : p ∈ monthNamesIdx := by
    rw [hsplit]
    exact List.mem_append_right l1 (List.mem_cons_self p l2)
  have hip : i = p.2 := by
    rcases hstrip : stripLead p.1 cs with _ | r
    · rw [hstrip] at hf; cases hf
    · rw [hstrip] at hf; cases hf; rfl
  subst hip
  simp only [monthNamesIdx, List.mem_cons, List.not_mem_nil, or_false] at hp
  rcases hp with rfl|rfl|rfl|rfl|rfl|rfl|rfl|rfl|rfl|rfl|rfl|rfl <;> norm_num

/-- Head match for the JS regex `last\s+(january|...|december)\b`
(the `\b` before `last` is checked by the scanner). -/
def lastMonthNameAt (cs : List Char) : Option Nat :=
  match stripLead ("last".data) cs with
  | none => none
  | some r1 =>
    match r1 with
    | [] => none
    | c :: _ =>
      if isSpaceChar c then
        match monthAt (r1.dropWhile isSpaceChar) with
        | some (i, r3) => if wordBoundaryAfter r3 then some i else none
        | none => none
      else none

/-- Left-to-right scan for `/\blast\s+(january|...|december)\b/`, tracking
whether the previous character was a word character (for `\b`). -/
def scanLastMonthName : Bool → List Char → Option Nat
  | _, [] => none
  | prevW, c :: rest =>
    match (if prevW then none else lastMonthNameAt (c :: rest)) with
    | some i => some i
    | none => scanLastMonthName (isWordChar c) rest

theorem lastMonthNameAt_lt_12 {cs : List Char} {i : Nat} (h : lastMonthNameAt cs = some i) :
    i < 12 := by
  unfold lastMonthNameAt at h
  split at h
  · cases h
  · split at h
    · cases h
    · split at h
      · split at h
        · split at h
          · cases h
            exact monthAt_lt_12 (by assumption)
          · cases h
        · cases h
      · cases h

theorem scanLastMonthName_lt_12 :
    ∀ (b : Bool) (cs : List Char) (i : Nat), scanLastMonthName b cs = some i → i < 12 := by
  intro b cs
  induction cs generalizing b with
  | nil => intro i h; cases h
  | cons c rest ih =>
    intro i h
    unfold scanLastMonthName at h
    split at h
    · rename_i heq
      cases h
      split at heq
      · cases heq
      · exact lastMonthNameAt_lt_12 heq
    · exact ih _ i h

/-- Head match for `last\s+<unit>\b` (`unit` is `month` or `week`). -/
def lastUnitAt (unit : List Char) (cs : List Char) : Bool :=
  match stripLead ("last".data) cs with
  | none => false
  | some r1 =>
    match r1 with
    | [] => false
    | c :: _ =>
      isSpaceChar c &&
        (match stripLead unit (r1.dropWhile isSpaceChar) with
         | some r3 => wordBoundaryAfter r3
         | none => false)

/-- Left-to-right scan for `/\blast\s+month\b/` or `/\blast\s+week\b/`. -/
def scanLastUnit (unit : List Char) : Bool → List Char → Bool
  | _, [] => false
  | prevW, c :: rest =>
    (!prevW && lastUnitAt unit (c :: rest)) || scanLastUnit unit (isWordChar c) rest

def digitsToNat (ds : List Char) : Nat :=
  ds.foldl (fun acc c => acc * 10 + (c.toNat - 48)) 0

/-- Four digits (`\d{4}`) at a word boundary: the year group of the
month-plus-year pattern.  A longer digit run cannot match because the fifth
digit breaks `\b`. -/
def yearDigitsAt (cs : List Char) : Option Nat :=
  let ds := cs.takeWhile isDigitChar
  if ds.length = 4 && wordBoundaryAfter (cs.dropWhile isDigitChar) then
    some (digitsToNat ds)
  else none

/-- Head match for `(january|...|december)\s+(\d{4})\b`: a full month name,
whitespace, then exactly four digits at a word boundary. -/
def monthYearAt (cs : List Char) : Option (Nat × Nat) :=
  match monthAt cs with
  | none => none
  | some (i, r1) =>
    match r1 with
    | [] => none
    | c :: _ =>
      if isSpaceChar c then
        match yearDigitsAt (r1.dropWhile isSpaceChar) with
        | some y => some (i, y)
        | none => none
      else none

/-- Left-to-right scan for `/\b(january|...)\s+(\d{4})\b/`. -/
def scanMonthYear : Bool → List Char → Option (Nat × Nat)
  | _, [] => none
  | prevW, c :: rest =>
    match (if prevW then none else monthYearAt (c :: rest)) with
    | some p => some p
    | none => scanMonthYear (isWordChar c) rest

theorem monthYearAt_lt_12 {cs : List Char} {i y : Nat} (h : monthYearAt cs = some (i, y)) :
    i < 12 := by
  unfold monthYearAt at h
  split at h
  · cases h
  · rename_i heq
    split at h
    · cases h
    · split at h
      · split at h
        · cases h
          exact monthAt_lt_12 heq
        · cases h
      · cases h

theorem scanMonthYear_lt_12 :
    ∀ (b : Bool) (cs : List Char) (i y : Nat), scanMonthYear b cs = some (i, y) → i < 12 := by
  intro b cs
  induction cs generalizing b with
  | nil => intro i y h; cases h
  | cons c rest ih =>
    intro i y h
    unfold scanMonthYear at h
    split at h
    · rename_i heq
      cases h
      split at heq
      · cases heq
      · exact monthYearAt_lt_12 heq
    · exact ih _ i y h

/-! ### `extractDates` -/

/-- A parse result of the external chrono-node library: a hit with a start
date and, for explicit ranges, an end date. -/
structure ChronoHit where
  startDate : Option SDate
  endDate : Option SDate

/-- The `{dateFrom?, dateTo?}` result shape of `extractDates`. -/
structure DateInfo where
  dateFrom : Option SDate := none
  dateTo : Option SDate := none
deriving DecidableEq, Repr

/-- The current instant as the service observes it through the JS `Date`
accessors `getFullYear`, `getMonth` (0-11), `getDate`, `getDay` (0-6). -/
structure JsNow where
  year : Int
  month : Fin 12
  day : Nat
  dayOfWeek : Fin 7

/-- `extractDates` of `query-preprocessing.service.ts`: the ordered rule
cascade (`last <month-name>`, `last month`, `last week`,
`<month-name> <4-digit-year>`, then the chrono-node fallback, modelled as
the oracle `chronoParse`).  The compromise NER block in the source matches
dates but discards the result, so it has no effect. -/
def extractDates (now : JsNow) (chronoParse : String → List ChronoHit)
    (query : String) : DateInfo :=
  let queryLower := jsToLower query
  match scanLastMonthName false queryLower.data with
  | some monthIndex =>
    let currentYear := now.year
    let currentMonth : Nat := now.month
    let targetYear := if currentMonth < monthIndex then currentYear - 1 else currentYear
    { dateFrom := some ⟨targetYear, monthIndex, 1⟩,
      dateTo := some (dateZero targetYear ((monthIndex : Int) + 1)) }
  | none =>
    if scanLastUnit ("month".data) false queryLower.data then
      { dateFrom := some (monthFirstDay now.year (((now.month : Nat) : Int) - 1)),
        dateTo := some (dateZero now.year ((now.month : Nat) : Int)) }
    else if scanLastUnit ("week".data) false queryLower.data then
      let dayOfWeek : Nat := now.dayOfWeek
      let daysToLastMonday := (if dayOfWeek = 0 then 6 else dayOfWeek - 1) + 7
      let today : SDate := ⟨now.year, now.month, now.day⟩
      let lastMonday := subDays today daysToLastMonday
      let lastSunday := addDays lastMonday 6
      { dateFrom := some lastMonday, dateTo := some lastSunday }
    else
      match scanMonthYear false queryLower.data with
      | some (monthIndex, year) =>
        { dateFrom := some ⟨(year : Int), monthIndex, 1⟩,
          dateTo := some (dateZero (year : Int) ((monthIndex : Int) + 1)) }
      | none =>
        let parsed := chronoParse query
        let dates := parsed.flatMap fun h => h.startDate.toList ++ h.endDate.toList
        let hasRange := parsed.any fun h => h.endDate.isSome
        match List.insertionSort SDate.le dates with
        | [] => {}
        | d :: ds =>
          if hasRange ∧ 2 ≤ (d :: ds).length then
            { dateFrom := some d, dateTo := some ((d :: ds).getLast (List.cons_ne_nil d ds)) }
          else if ds = [] then { dateFrom := some d, dateTo := some d }
          else { dateFrom := some d, dateTo := some ((d :: ds).getLast (List.cons_ne_nil d ds)) }

/-! ### Amount-pattern scanners (`extractAmounts` regexes)

The JS code collects candidate amounts by running five global regexes over
the query; each scanner below is the leftmost-match / continue-after-match
loop of one pattern.  `pushPos` is the source's `if (amount > 0)
amounts.push(amount)` guard. -/

/-- A matched number token `\d+(?:[.,]\d+)?`. -/
structure NumTok where
  intPart : List Char
  frac : Option (Char × List Char)

/-- `parseAmount`: strip commas, then read as a decimal number (the exact
value `intPart.fs = (intPart·10^k + fs) / 10^k` that `parseFloat` denotes). -/
def amtValue (n : NumTok) : ℚ :=
  match n.frac with
  | none => (digitsToNat n.intPart : ℚ)
  | some (c, fs) =>
    if c = ',' then (digitsToNat (n.intPart ++ fs) : ℚ)
    else mkRat (digitsToNat (n.intPart ++ fs)) (10 ^ fs.length)

/-- Greedy match of `\d+(?:[.,]\d+)?` at the head of `cs`. -/
def numAt (cs : List Char) : Option (NumTok × List Char) :=
  let ds := cs.takeWhile isDigitChar
  if ds.isEmpty then none
  else
    match cs.dropWhile isDigitChar with
    | [] => some (⟨ds, none⟩, [])
    | c :: rest =>
      if c = '.' ∨ c = ',' then
        let fs := rest.takeWhile isDigitChar
        if fs.isEmpty then some (⟨ds, none⟩, c :: rest)
        else some (⟨ds, some (c, fs)⟩, rest.dropWhile isDigitChar)
      else some (⟨ds, none⟩, c :: rest)

def pushPos (v : ℚ) : List ℚ :=
  if 0 < v then [v] else []

theorem mem_pushPos {v x : ℚ} (h : v ∈ pushPos x) : 0 < v := by
  unfold pushPos at h
  split at h
  · rcases List.mem_cons.1 h with rfl | h
    · assumption
    · exact absurd h (List.not_mem_nil v)
  · exact absurd h (List.not_mem_nil v)

/-- Optional single character, case-insensitively (`s?`, `\.?`). -/
def optCI (c : Char) : List Char → List Char
  | [] => []
  | x :: r => if x.toLower = c then r else x :: r

/-- The alternation `(?:rupees?|rs\.?|dollars?|usd|eur|gbp)` (flag `i`). -/
def currencyWordAt (cs : List Char) : Option (List Char) :=
  (stripCI ("rupee".data) cs).map (optCI 's') <|>
  (stripCI ("rs".data) cs).map (optCI '.') <|>
  (stripCI ("dollar".data) cs).map (optCI 's') <|>
  stripCI ("usd".data) cs <|>
  stripCI ("eur".data) cs <|>
  stripCI ("gbp".data) cs

/-- Wrap a single-capture matcher with the source's `amount > 0` push
guard. -/
def mv1 (f : List Char → Option (ℚ × List Char)) (cs : List Char) :
    Option (List ℚ × List Char) :=
  (f cs).map fun p => (pushPos p.1, p.2)

/-- Wrap a two-capture matcher (both range groups) with the push guard. -/
def mv2 (f : List Char → Option (ℚ × ℚ × List Char)) (cs : List Char) :
    Option (List ℚ × List Char) :=
  (f cs).map fun p => (pushPos p.1 ++ pushPos p.2.1, p.2.2)

theorem mv1_pos (f : List Char → Option (ℚ × List Char)) :
    ∀ cs vs r, mv1 f cs = some (vs, r) → ∀ v ∈ vs, 0 < v := by
  intro cs vs r h v hv
  unfold mv1 at h
  cases hf : f cs with
  | none => rw [hf] at h; cases h
  | some p =>
    rw [hf] at h
    cases h
    exact mem_pushPos hv

theorem mv2_pos (f : List Char → Option (ℚ × ℚ × List Char)) :
    ∀ cs vs r, mv2 f cs = some (vs, r) → ∀ v ∈ vs, 0 < v := by
  intro cs vs r h v hv
  unfold mv2 at h
  cases hf : f cs with
  | none => rw [hf] at h; cases h
  | some p =>
    rw [hf] at h
    cases h
    rcases List.mem_append.1 hv with hv2 | hv2
    · exact mem_pushPos hv2
    · exact mem_pushPos hv2

/-- Head match of `[₹$€£]\s*(\d+(?:[.,]\d+)?)`. -/
def currencySymCore (cs : List Char) : Option (ℚ × List Char) :=
  match cs with
  | [] => none
  | c :: rest =>
    if c = '₹' ∨ c = '$' ∨ c = '€' ∨ c = '£' then
      match numAt (rest.dropWhile isSpaceChar) with
      | some (n, r) => some (amtValue n, r)
      | none => none
    else none

def currencySymM : List Char → Option (List ℚ × List Char) :=
  mv1 currencySymCore

/-- Head match of `(\d+(?:[.,]\d+)?)\s*(?:rupees?|rs\.?|dollars?|usd|eur|gbp)`. -/
def currencyWordCore (cs : List Char) : Option (ℚ × List Char) :=
  match numAt cs with
  | some (n, r1) =>
    match currencyWordAt (r1.dropWhile isSpaceChar) with
    | some r2 => some (amtValue n, r2)
    | none => none
  | none => none

def currencyWordM : List Char → Option (List ℚ × List Char) :=
  mv1 currencyWordCore

/-- Head match of `(\d{4,}(?:[.,]\d+)?)\b` (the leading `\b` is checked by
the scanning driver).  When the optional fraction is present but not
followed by a word boundary, the regex backtracks to the integer part,
whose boundary (the separator itself) always holds. -/
def bigNumCore (cs : List Char) : Option (ℚ × List Char) :=
  let ds := cs.takeWhile isDigitChar
  if ds.length < 4 then none
  else
    match cs.dropWhile isDigitChar with
    | [] => some ((digitsToNat ds : ℚ), [])
    | s :: r1 =>
      if s = '.' ∨ s = ',' then
        let fs := r1.takeWhile isDigitChar
        if fs.isEmpty then some ((digitsToNat ds : ℚ), s :: r1)
        else if wordBoundaryAfter (r1.dropWhile isDigitChar) then
          some (amtValue ⟨ds, some (s, fs)⟩, r1.dropWhile isDigitChar)
        else some ((digitsToNat ds : ℚ), s :: r1)
      else if isWordChar s then none
      else some ((digitsToNat ds : ℚ), s :: r1)

def bigNumM : List Char → Option (List ℚ × List Char) :=
  mv1 bigNumCore

/-- Head match of `(?:between|from)\s+(\d+(?:[.,]\d+)?)\s+(?:and|to)\s+(\d+(?:[.,]\d+)?)`
(flag `i`), producing both captured amounts. -/
def rangeCore (cs : List Char) : Option (ℚ × ℚ × List Char) :=
  match (stripCI ("between".data) cs) <|> (stripCI ("from".data) cs) with
  | none => none
  | some r1 =>
    match r1 with
    | [] => none
    | c1 :: _ =>
      if isSpaceChar c1 then
        match numAt (r1.dropWhile isSpaceChar) with
        | some (n1, r2) =>
          match r2 with
          | [] => none
          | c2 :: _ =>
            if isSpaceChar c2 then
              match (stripCI ("and".data) (r2.dropWhile isSpaceChar)) <|>
                    (stripCI ("to".data) (r2.dropWhile isSpaceChar)) with
              | none => none
              | some r3 =>
                match r3 with
                | [] => none
                | c3 :: _ =>
                  if isSpaceChar c3 then
                    match numAt (r3.dropWhile isSpaceChar) with
                    | some (n2, r4) => some (amtValue n1, amtValue n2, r4)
                    | none => none
                  else none
            else none
        | none => none
      else none

def rangeM : List Char → Option (List ℚ × List Char) :=
  mv2 rangeCore

/-- Head match of `(\d+(?:[.,]\d+)?)\s+to\s+(\d+(?:[.,]\d+)?)` (flag `i`). -/
def numToNumCore (cs : List Char) : Option (ℚ × ℚ × List Char) :=
  match numAt cs with
  | none => none
  | some (n1, r1) =>
    match r1 with
    | [] => none
    | c1 :: _ =>
      if isSpaceChar c1 then
        match stripCI ("to".data) (r1.dropWhile isSpaceChar) with
        | none => none
        | some r2 =>
          match r2 with
          | [] => none
          | c2 :: _ =>
            if isSpaceChar c2 then
              match numAt (r2.dropWhile isSpaceChar) with
              | some (n2, r3) => some (amtValue n1, amtValue n2, r3)
              | none => none
            else none
      else none

def numToNumM : List Char → Option (List ℚ × List Char) :=
  mv2 numToNumCore

/-- Global-regex loop: try the matcher at each position, left to right,
continuing after each match (`lastIndex` semantics).  The matchers never
match an empty string (the length guard makes that explicit), so the fuel
`cs.length` always suffices; fuel keeps the recursion structural and hence
kernel-evaluable. -/
def scanWithGo (m : List Char → Option (List ℚ × List Char)) : Nat → List Char → List ℚ
  | _, [] => []
  | 0, _ :: _ => []
  | fuel + 1, c :: rest =>
    match m (c :: rest) with
    | some (vs, r) =>
      if r.length < rest.length + 1 then vs ++ scanWithGo m fuel r
      else scanWithGo m fuel rest
    | none => scanWithGo m fuel rest

def scanWith (m : List Char → Option (List ℚ × List Char)) (cs : List Char) : List ℚ :=
  scanWithGo m cs.length cs

/-- Like `scanWith` but tracking whether the previous character is a word
character, for a pattern starting with `\b\d`: a successful match always
ends in a digit, so scanning resumes with the flag set. -/
def scanWithBGo (m : List Char → Option (List ℚ × List Char)) :
    Nat → Bool → List Char → List ℚ
  | _, _, [] => []
  | 0, _, _ :: _ => []
  | fuel + 1, prevW, c :: rest =>
    if prevW then scanWithBGo m fuel (isWordChar c) rest
    else
      match m (c :: rest) with
      | some (vs, r) =>
        if r.length < rest.length + 1 then vs ++ scanWithBGo m fuel true r
        else scanWithBGo m fuel (isWordChar c) rest
      | none => scanWithBGo m fuel (isWordChar c) rest

def scanWithB (m : List Char → Option (List ℚ × List Char)) (prevW : Bool) (cs : List Char) :
    List ℚ :=
  scanWithBGo m cs.length prevW cs

/-- The five amount regexes, run over the whole query in source order. -/
def collectRegexAmounts (cs : List Char) : List ℚ :=
  scanWith currencySymM cs ++ scanWith currencyWordM cs ++ scanWithB bigNumM false cs ++
    scanWith rangeM cs ++ scanWith numToNumM cs

/-- `rangePattern.exec(query)`: does the explicit range regex match
anywhere? -/
def rangeTestScan : List Char → Bool
  | [] => false
  | c :: rest => (rangeM (c :: rest)).isSome || rangeTestScan rest

/-- The `{amountMin?, amountMax?}` result shape of `extractAmounts`. -/
structure AmountInfo where
  amountMin : Option ℚ := none
  amountMax : Option ℚ := none
deriving DecidableEq, Repr

/-- The amounts the source accumulates before applying the range policy:
the compromise `#Money` hits (an external-NLP oracle, filtered by the
source's `amount > 0` guard), or, when the oracle finds nothing, the five
regex scanners. -/
def collectedAmounts (nerMoney : String → List ℚ) (query : String) : List ℚ :=
  let nerAmts := (nerMoney query).filter fun a => decide (0 < a)
  if nerAmts.isEmpty then collectRegexAmounts query.data else nerAmts

/-- `extractAmounts` of `query-preprocessing.service.ts`: collect, dedupe
and sort the amounts, then apply the range policy (explicit range ⇒ sorted
extremes; single amount ⇒ ±10 % band; several amounts ⇒ sorted extremes). -/
def extractAmounts (nerMoney : String → List ℚ) (query : String) : AmountInfo :=
  let amounts := collectedAmounts nerMoney query
  if amounts.isEmpty then {}
  else
    match List.insertionSort (· ≤ ·) (dedupFirst amounts) with
    | [] => {}
    | u :: us =>
      if rangeTestScan query.data then
        { amountMin := some u, amountMax := some ((u :: us).getLast (List.cons_ne_nil u us)) }
      else if us = [] then
        { amountMin := some (max 0 (u - u * (1/10))), amountMax := some (u + u * (1/10)) }
      else
        { amountMin := some u, amountMax := some ((u :: us).getLast (List.cons_ne_nil u us)) }

/-! ### Text-removal passes (`removeDateText`, `removeAmountText`)

Each source pattern is a global case-insensitive regex replaced by a single
space.  A matcher returns the rest of the input after a head match; the
driver walks the string left to right, emitting `' '` for each match and
resuming after it (`String.prototype.replace` semantics). -/

/-- Character of the matched text immediately preceding the rest `r`
(`cs` is the text the match started at); used to re-establish the `\b`
context after a replacement. -/
def lastMatchedWord (cs r : List Char) : Bool :=
  match cs.get? (cs.length - r.length - 1) with
  | some ch => isWordChar ch
  | none => false

/-- Replace every match of `m` by one space.  `needB` demands a word
boundary before the match (a pattern starting with `\b`).  As with the
scanners, the matchers never match an empty string, so the fuel suffices. -/
def replaceScanGo (needB : Bool) (m : List Char → Option (List Char)) :
    Nat → Bool → List Char → List Char
  | _, _, [] => []
  | 0, _, rest => rest
  | fuel + 1, prevW, c :: rest =>
    if needB && prevW then c :: replaceScanGo needB m fuel (isWordChar c) rest
    else
      match m (c :: rest) with
      | some r =>
        if r.length < rest.length + 1 then
          ' ' :: replaceScanGo needB m fuel (lastMatchedWord (c :: rest) r) r
        else c :: replaceScanGo needB m fuel (isWordChar c) rest
      | none => c :: replaceScanGo needB m fuel (isWordChar c) rest

def runReplaceB (needB : Bool) (m : List Char → Option (List Char)) (s : List Char) :
    List Char :=
  replaceScanGo needB m s.length false s

/-- Ordered case-insensitive alternation of literal words. -/
def altCI (names : List (List Char)) (cs : List Char) : Option (List Char) :=
  names.findSome? fun w => stripCI w cs

/-- Ordered alternation of literal words, each required to end at a word
boundary (`(w1|w2|...)\b`); on a boundary failure the regex engine tries
the later alternatives, which the `findSome?` realizes. -/
def altWordB (names : List (List Char)) (cs : List Char) : Option (List Char) :=
  names.findSome? fun nm =>
    match stripCI nm cs with
    | some r => if wordBoundaryAfter r then some r else none
    | none => none

def isLetterChar (c : Char) : Bool :=
  c.isAlpha

/-- Whole-run digit group `\d{lo,hi}`: every digit pattern in the removal
regexes is followed by a non-digit requirement (`[-\/]`, `\s`, `,` or `\b`),
so a match must consume the entire maximal digit run. -/
def digitsRun (lo hi : Nat) (cs : List Char) : Option (List Char × List Char) :=
  let ds := cs.takeWhile isDigitChar
  if lo ≤ ds.length ∧ ds.length ≤ hi then some (ds, cs.dropWhile isDigitChar) else none

def sepDM (cs : List Char) : Option (List Char) :=
  match cs with
  | [] => none
  | c :: r => if c = '-' ∨ c = '/' then some r else none

/-- One mandatory whitespace, then any further whitespace (`\s+`). -/
def spacesAt (cs : List Char) : Option (List Char) :=
  match cs with
  | [] => none
  | c :: _ => if isSpaceChar c then some (cs.dropWhile isSpaceChar) else none

def timeUnitNames : List (List Char) :=
  ["week".data, "month".data, "year".data, "monday".data, "tuesday".data,
   "wednesday".data, "thursday".data, "friday".data, "saturday".data, "sunday".data,
   "january".data, "february".data, "march".data, "april".data, "may".data,
   "june".data, "july".data, "august".data, "september".data, "october".data,
   "november".data, "december".data]

def monthAbbrevNames : List (List Char) :=
  ["jan".data, "feb".data, "mar".data, "apr".data, "may".data, "jun".data,
   "jul".data, "aug".data, "sep".data, "oct".data, "nov".data, "dec".data]

def monthFullNames : List (List Char) :=
  ["january".data, "february".data, "march".data, "april".data, "may".data,
   "june".data, "july".data, "august".data, "september".data, "october".data,
   "november".data, "december".data]

/-- `(jan|feb|...)[a-z]*`: abbreviation then greedy letters. -/
def monthAbbrevAt (cs : List Char) : Option (List Char) :=
  (altCI monthAbbrevNames cs).map (·.dropWhile isLetterChar)

/-- `/\b(today|yesterday|tomorrow)\b/gi` -/
def dateP1 (cs : List Char) : Option (List Char) :=
  altWordB ["today".data, "yesterday".data, "tomorrow".data] cs

/-- `(a1|a2)\s+(u1|u2|...)\b`, the shape of the second and third date
patterns. -/
def wordThenUnits (firsts units : List (List Char)) (cs : List Char) : Option (List Char) :=
  match altCI firsts cs with
  | none => none
  | some r1 =>
    match spacesAt r1 with
    | none => none
    | some r2 => altWordB units r2

/-- `/\b(last|next)\s+(week|month|year|<weekday>|<month>)\b/gi` -/
def dateP2 (cs : List Char) : Option (List Char) :=
  wordThenUnits ["last".data, "next".data] timeUnitNames cs

/-- `/\b(this|that)\s+(day|week|month|year)\b/gi` -/
def dateP3 (cs : List Char) : Option (List Char) :=
  wordThenUnits ["this".data, "that".data] ["day".data, "week".data, "month".data, "year".data] cs

/-- `/\b\d{1,2}[-\/]\d{1,2}[-\/]\d{2,4}\b/g` -/
def dateP4 (cs : List Char) : Option (List Char) :=
  match digitsRun 1 2 cs with
  | none => none
  | some (_, r1) =>
    match sepDM r1 with
    | none => none
    | some r2 =>
      match digitsRun 1 2 r2 with
      | none => none
      | some (_, r3) =>
        match sepDM r3 with
        | none => none
        | some r4 =>
          match digitsRun 2 4 r4 with
          | none => none
          | some (_, r5) => if wordBoundaryAfter r5 then some r5 else none

/-- `/\b\d{4}[-\/]\d{1,2}[-\/]\d{1,2}\b/g` -/
def dateP5 (cs : List Char) : Option (List Char) :=
  match digitsRun 4 4 cs with
  | none => none
  | some (_, r1) =>
    match sepDM r1 with
    | none => none
    | some r2 =>
      match digitsRun 1 2 r2 with
      | none => none
      | some (_, r3) =>
        match sepDM r3 with
        | none => none
        | some r4 =>
          match digitsRun 1 2 r4 with
          | none => none
          | some (_, r5) => if wordBoundaryAfter r5 then some r5 else none

/-- `,?\s+`: an optional comma, then mandatory whitespace. -/
def commaSpaces (cs : List Char) : Option (List Char) :=
  match cs with
  | ',' :: t => spacesAt t
  | _ => spacesAt cs

/-- `/\b(jan|...|dec)[a-z]*\s+\d{1,2},?\s+\d{4}\b/gi` -/
def dateP6 (cs : List Char) : Option (List Char) :=
  match monthAbbrevAt cs with
  | none => none
  | some r1 =>
    match spacesAt r1 with
    | none => none
    | some r2 =>
      match digitsRun 1 2 r2 with
      | none => none
      | some (_, r3) =>
        match commaSpaces r3 with
        | none => none
        | some r4 =>
          match digitsRun 4 4 r4 with
          | none => none
          | some (_, r5) => if wordBoundaryAfter r5 then some r5 else none

/-- `/\b\d{1,2}\s+(jan|...|dec)[a-z]*\s+\d{4}\b/gi` -/
def dateP7 (cs : List Char) : Option (List Char) :=
  match digitsRun 1 2 cs with
  | none => none
  | some (_, r1) =>
    match spacesAt r1 with
    | none => none
    | some r2 =>
      match monthAbbrevAt r2 with
      | none => none
      | some r3 =>
        match spacesAt r3 with
        | none => none
        | some r4 =>
          match digitsRun 4 4 r4 with
          | none => none
          | some (_, r5) => if wordBoundaryAfter r5 then some r5 else none

/-- `/\b(january|...|december)\s+\d{4}\b/gi` -/
def dateP8 (cs : List Char) : Option (List Char) :=
  match altCI monthFullNames cs with
  | none => none
  | some r1 =>
    match spacesAt r1 with
    | none => none
    | some r2 =>
      match digitsRun 4 4 r2 with
      | none => none
      | some (_, r3) => if wordBoundaryAfter r3 then some r3 else none

/-- `/\b(jan|...|dec)[a-z]*\s+\d{4}\b/gi` -/
def dateP9 (cs : List Char) : Option (List Char) :=
  match monthAbbrevAt cs with
  | none => none
  | some r1 =>
    match spacesAt r1 with
    | none => none
    | some r2 =>
      match digitsRun 4 4 r2 with
      | none => none
      | some (_, r3) => if wordBoundaryAfter r3 then some r3 else none

/-- `removeDateText`: the nine date patterns replaced by spaces, in source
order (every pattern starts with `\b`). -/
def removeDateText (query : String) : String :=
  let c1 := runReplaceB true dateP1 query.data
  let c2 := runReplaceB true dateP2 c1
  let c3 := runReplaceB true dateP3 c2
  let c4 := runReplaceB true dateP4 c3
  let c5 := runReplaceB true dateP5 c4
  let c6 := runReplaceB true dateP6 c5
  let c7 := runReplaceB true dateP7 c6
  let c8 := runReplaceB true dateP8 c7
  let c9 := runReplaceB true dateP9 c8
  String.mk c9

/-- `/\b(?:around|about|approximately|approx)\s+\d+(?:[.,]\d+)?/gi` -/
def approxM (cs : List Char) : Option (List Char) :=
  match altCI ["around".data, "about".data, "approximately".data, "approx".data] cs with
  | none => none
  | some r1 =>
    match spacesAt r1 with
    | none => none
    | some r2 =>
      match numAt r2 with
      | some (_, r3) => some r3
      | none => none

/-- `removeAmountText`: the five amount patterns replaced by spaces, in
source order (only the approximation pattern starts with `\b`). -/
def removeAmountText (query : String) : String :=
  let c1 := runReplaceB false (fun cs => (currencySymM cs).map (·.2)) query.data
  let c2 := runReplaceB false (fun cs => (currencyWordM cs).map (·.2)) c1
  let c3 := runReplaceB false (fun cs => (rangeM cs).map (·.2)) c2
  let c4 := runReplaceB false (fun cs => (numToNumM cs).map (·.2)) c3
  let c5 := runReplaceB true approxM c4
  String.mk c5

/-! ### Stop-word removal -/

def stopWords : List String :=
  ["find", "get", "show", "display", "search", "look", "list", "lists",
   "for", "the", "a", "an", "this", "that", "these", "those",
   "is", "are", "was", "were", "be", "been", "being",
   "have", "has", "had", "do", "does", "did",
   "will", "would", "should", "could", "may", "might", "can", "must",
   "to", "from", "in", "on", "at", "by", "with", "of", "about",
   "into", "onto", "up", "down", "out", "off", "over", "under", "above", "below",
   "me", "my", "myself", "we", "our", "ours", "ourselves",
   "you", "your", "yours", "yourself", "yourselves",
   "he", "him", "his", "himself", "she", "her", "hers", "herself",
   "it", "its", "itself", "they", "them", "their", "theirs", "themselves",
   "what", "which", "who", "whom", "whose", "where", "when", "why", "how",
   "all", "each", "every", "both", "few", "more", "most", "other", "some", "such",
   "no", "nor", "not", "only", "own", "same", "so", "than", "too", "very",
   "just", "now", "invoice", "invoices", "bill", "bills"]

/-- Worker for `splitWs`: `inSep` records whether we are inside a
whitespace run, `cur` accumulates the current token reversed. -/
def splitGo : Bool → List Char → List Char → List (List Char)
  | _, cur, [] => [cur.reverse]
  | inSep, cur, c :: rest =>
    if isSpaceChar c then
      if inSep then splitGo true [] rest
      else cur.reverse :: splitGo true [] rest
    else splitGo false (c :: cur) rest

/-- JS `query.split(/\s+/)`: the substrings between maximal whitespace runs,
including an empty token at either end when the string starts or ends with
whitespace. -/
def splitWs (cs : List Char) : List (List Char) :=
  splitGo false [] cs

/-- JS `words.join(' ')`. -/
def joinSp : List (List Char) → List Char
  | [] => []
  | [w] => w
  | w :: ws => w ++ ' ' :: joinSp ws

def isPunctStop (c : Char) : Bool :=
  c = '.' ∨ c = ',' ∨ c = '!' ∨ c = '?' ∨ c = ';' ∨ c = ':'

/-- `word.toLowerCase().replace(/[.,!?;:]/g, '')` -/
def cleanedWord (w : List Char) : List Char :=
  (w.map Char.toLower).filter fun c => !isPunctStop c

def keepWord (w : List Char) : Bool :=
  0 < (cleanedWord w).length && !(stopWords.contains (String.mk (cleanedWord w)))

/-- `removeStopWords` of `query-preprocessing.service.ts`: split on
whitespace, drop tokens whose punctuation-stripped lowercase form is empty
or a stop word, rejoin with single spaces. -/
def removeStopWords (query : String) : String :=
  String.mk (joinSp ((splitWs query.data).filter keepWord))

/-! ### `preprocessQuery` -/

/-- The result record of `preprocessQuery` (the first, authoritative version
of the service: no `correctedQuery`/`originalQuery` fields). -/
structure PreprocessedQuery where
  normalizedQuery : String
  dateFrom : Option SDate := none
  dateTo : Option SDate := none
  amountMin : Option ℚ := none
  amountMax : Option ℚ := none
  vendorNames : List String := []
  productNames : List String := []

/-- The external-NLP oracles `preprocessQuery` consults: chrono-node date
parsing and the three compromise extractions (money values, vendor-name
spans, product-name spans). -/
structure PreprocessOracles where
  chronoParse : String → List ChronoHit
  nerMoney : String → List ℚ
  nerVendors : String → List String
  nerProducts : String → List String

/-- `extractVendorNames`: proper-noun recognition and its filtering run over
the match objects of the external compromise library; the extraction is
modelled as an oracle producing the final vendor-candidate list. -/
def extractVendorNames (nerVendors : String → List String) (query : String) : List String :=
  nerVendors query

/-- `extractProductNames`: noun recognition is the compromise oracle; the
source's exclusion of already-claimed vendor names (case-insensitive) is
kept. -/
def extractProductNames (nerProducts : String → List String) (query : String)
    (vendorNames : List String) : List String :=
  (nerProducts query).filter fun p =>
    !((vendorNames.map (fun v => jsToLower v)).contains (jsToLower p))

/-- `preprocessQuery` of `query-preprocessing.service.ts`: empty-input early
return, lower-casing, date extraction and removal, amount extraction and
removal, entity extraction, stop-word removal. -/
def preprocessQuery (now : JsNow) (o : PreprocessOracles) (query : String) :
    PreprocessedQuery :=
  if jsTrim query = "" then { normalizedQuery := "" }
  else
    let working0 := jsToLower (jsTrim query)
    let dateInfo := extractDates now o.chronoParse working0
    let working1 :=
      if dateInfo.dateFrom.isSome || dateInfo.dateTo.isSome then
        jsTrim (removeDateText working0)
      else working0
    let amountInfo := extractAmounts o.nerMoney working1
    let working2 :=
      if amountInfo.amountMin.isSome || amountInfo.amountMax.isSome then
        jsTrim (removeAmountText working1)
      else working1
    let vendorNames := extractVendorNames o.nerVendors working2
    let productNames := extractProductNames o.nerProducts working2 vendorNames
    { normalizedQuery := jsTrim (removeStopWords working2)
      dateFrom := dateInfo.dateFrom
      dateTo := dateInfo.dateTo
      amountMin := amountInfo.amountMin
      amountMax := amountInfo.amountMax
      vendorNames := vendorNames
      productNames := productNames }

/-! ### Fuzzy matching: Levenshtein distance and multi-word phrases -/

/-- One row update of the source's `levenshteinDistance` matrix: `bc` is the
current character of `b`, the row is indexed by prefixes of `a`; `diag` and
`left` are `matrix[i-1][j-1]` and `matrix[i][j-1]`. -/
def levStep (bc : Char) : List Char → List Nat → Nat → Nat → List Nat
  | [], _, _, _ => []
  | _ :: _, [], _, _ => []
  | ac :: arest, up :: ps, diag, left =>
    let v := if ac = bc then diag else Nat.min diag (Nat.min left up) + 1
    v :: levStep bc arest ps up v

def levRow (bc : Char) (a : List Char) (prev : List Nat) : List Nat :=
  match prev with
  | [] => []
  | p0 :: ptail => (p0 + 1) :: levStep bc a ptail p0 (p0 + 1)

/-- `levenshteinDistance` of `fuzzy-matching.service.ts`: dynamic
programming over the character matrix, row by row. -/
def levenshteinDistance (a b : String) : Nat :=
  let row0 := List.range (a.data.length + 1)
  let finalRow := b.data.foldl (fun r bc => levRow bc a.data r) row0
  finalRow.getLast?.getD 0

/-- The per-window loop of `findFuzzyPhrase`: walk the aligned token pairs;
reject as soon as a pair's normalized similarity `1 - dist/maxLen` drops
below `0.6`, otherwise accumulate the summed edit distance. -/
def windowLoop : List String → List String → Nat → Option Nat
  | [], [], acc => some acc
  | c :: cs, t :: ts, acc =>
    let dist := levenshteinDistance (jsToLower c) (jsToLower t)
    let maxLen := Nat.max c.length t.length
    let similarity : ℚ := 1 - (dist : ℚ) / (maxLen : ℚ)
    if similarity < 3/5 then none else windowLoop cs ts (acc + dist)
  | _, _, _ => none

/-- Window acceptance: every pair cleared the similarity bar and the summed
distance is at most `targetLen * 2`. -/
def phraseWindowOk (cand targ : List String) : Bool :=
  match windowLoop cand targ 0 with
  | some total => total ≤ targ.length * 2
  | none => false

def splitWsStr (s : String) : List String :=
  (splitWs s.data).map String.mk

/-- The window slide of `findFuzzyPhrase`
(`for i = 0; i <= queryWords.length - targetLen; i++`). -/
def findWindow (tws : List String) (qws : List String) : Option (List String) :=
  if tws.length ≤ qws.length then
    if phraseWindowOk (qws.take tws.length) tws then some (qws.take tws.length)
    else
      match qws with
      | [] => none
      | _ :: rest => findWindow tws rest
  else none

/-- `findFuzzyPhrase` of `fuzzy-matching.service.ts`: slide a window of the
target's token count across the query words; return the first accepted
window, joined with single spaces. -/
def findFuzzyPhrase (query targetPhrase : String) : Option String :=
  let targetWords := splitWsStr targetPhrase
  let queryWords := splitWsStr query
  (findWindow targetWords queryWords).map fun cand => String.mk (joinSp (cand.map String.data))

/-! ### Fuzzy-matching service: static dictionary, cache state, `correctQuery` -/

def actionWords : List String :=
  ["find", "show", "get", "search", "list", "display", "fetch", "retrieve",
   "look", "give", "bring", "pull", "view", "see", "check"]

def domainWords : List String :=
  ["invoice", "invoices", "bill", "bills", "purchase", "purchases",
   "order", "orders", "receipt", "receipts", "payment", "payments",
   "transaction", "transactions", "expense", "expenses", "document", "documents"]

def keywordWords : List String :=
  ["from", "for", "with", "by", "to", "between", "and", "or",
   "containing", "including", "last", "next", "this", "that",
   "month", "week", "year", "today", "yesterday", "tomorrow",
   "january", "february", "march", "april", "may", "june",
   "july", "august", "september", "october", "november", "december",
   "rupees", "rs", "dollars", "amount", "total", "vendor", "supplier"]

def staticDictionary : List String :=
  actionWords ++ domainWords ++ keywordWords

/-- The process-wide vocabulary cache of `FuzzyMatchingService`.  The Fuse.js
indexes are modelled by the vendor/product lists they were built from
(`none` before the first successful refresh, mirroring the nullable fields). -/
structure CacheState where
  vendorList : List String
  productList : List String
  vendorFuse : Option (List String)
  productFuse : Option (List String)
  lastCacheUpdate : Option Int

/-- One row of the Postgres fuzzystrmatch phonetic query (the store computes
soundex/dmetaphone/levenshtein and the composite score; rows arrive ordered
by soundex desc, metaphone desc, edit distance asc). -/
structure PhonRow where
  vendor_name : String
  soundex_match : Bool
  metaphone_match : Bool
  edit_distance : Nat
  phonetic_score : ℚ

/-- External collaborators of the fuzzy-matching service: the store's
distinct-vendor/product queries, the Fuse.js approximate search (result
items with their scores, best first), and the phonetic SQL query. -/
structure FuzzyOracles where
  dbVendors : Except String (List (Option String))
  dbProducts : Except String (List (Option String))
  fuseSearch : List String → String → List (String × Option ℚ)
  phonQuery : String → Except String (List PhonRow)

def CACHE_TTL_MS : Int := 5 * 60 * 1000

/-- `refreshEntityCache`: skip when the cache is younger than the TTL;
otherwise fetch distinct vendor then product names, dropping null/blank
ones.  A fetch failure is caught and logged, keeping whatever was assigned
before it (the source mutates the vendor list before fetching products). -/
def refreshEntityCache (o : FuzzyOracles) (now : Int) (st : CacheState) : CacheState :=
  let valid : Bool :=
    match st.lastCacheUpdate with
    | some t => decide (now - t < CACHE_TTL_MS)
    | none => false
  if valid then st
  else
    match o.dbVendors with
    | .error _ => st
    | .ok vrows =>
      let vlist := vrows.filterMap fun r =>
        match r with
        | some s => if jsTrim s = "" then none else some s
        | none => none
      let st1 := { st with vendorList := vlist, vendorFuse := some vlist }
      match o.dbProducts with
      | .error _ => st1
      | .ok prows =>
        let plist := prows.filterMap fun r =>
          match r with
          | some s => if jsTrim s = "" then none else some s
          | none => none
        { vendorList := vlist, productList := plist, vendorFuse := some vlist,
          productFuse := some plist, lastCacheUpdate := some now }

structure FuzzyMatchResult where
  original : String
  corrected : String
  wasChanged : Bool
  confidence : ℚ

def noChange (w : String) : FuzzyMatchResult :=
  ⟨w, w, false, 0⟩

/-- `closest` of the fastest-levenshtein library: the first dictionary entry
with minimal edit distance. -/
def closestIn (w : String) (dict : List String) : Option String :=
  dict.foldl
    (fun best cand =>
      match best with
      | none => some cand
      | some b =>
        if levenshteinDistance w cand < levenshteinDistance w b then some cand else best)
    none

/-- `fuzzyMatchStatic`: closest static-dictionary entry, accepted when the
distance is at most 2 with a length difference of at most 1, or the
normalized similarity is at least 0.6. -/
def fuzzyMatchStatic (word : String) : FuzzyMatchResult :=
  let wordLower := jsToLower word
  match closestIn wordLower staticDictionary with
  | none => noChange word
  | some m =>
    let distance := levenshteinDistance wordLower m
    let maxLen := Nat.max word.length m.length
    let confidence : ℚ := 1 - (distance : ℚ) / (maxLen : ℚ)
    let lenDiff := Nat.max word.length m.length - Nat.min word.length m.length
    if (distance ≤ 2 ∧ lenDiff ≤ 1) ∨ confidence ≥ 3/5 then
      { original := word, corrected := m, wasChanged := m ≠ wordLower, confidence := confidence }
    else noChange word

/-- `fuzzyMatchVendor`: Fuse.js search over the cached vendor list, accepted
when the confidence `1 - score` exceeds 0.6. -/
def fuzzyMatchVendor (o : FuzzyOracles) (st : CacheState) (word : String) : FuzzyMatchResult :=
  match st.vendorFuse with
  | none => noChange word
  | some fl =>
    if st.vendorList.isEmpty then noChange word
    else
      match o.fuseSearch fl word with
      | [] => noChange word
      | best :: _ =>
        let score := best.2.getD 1
        let confidence := 1 - score
        if confidence > 3/5 then
          { original := word, corrected := best.1,
            wasChanged := jsToLower best.1 ≠ jsToLower word, confidence := confidence }
        else noChange word

/-- `fuzzyMatchProduct`: as `fuzzyMatchVendor`, over the product list. -/
def fuzzyMatchProduct (o : FuzzyOracles) (st : CacheState) (word : String) : FuzzyMatchResult :=
  match st.productFuse with
  | none => noChange word
  | some fl =>
    if st.productList.isEmpty then noChange word
    else
      match o.fuseSearch fl word with
      | [] => noChange word
      | best :: _ =>
        let score := best.2.getD 1
        let confidence := 1 - score
        if confidence > 3/5 then
          { original := word, corrected := best.1,
            wasChanged := jsToLower best.1 ≠ jsToLower word, confidence := confidence }
        else noChange word

/-- `phoneticMatchVendor`: take the best row of the phonetic SQL query;
accept on a soundex or metaphone match, or an edit distance of at most 2
with score above 0.5; boost the confidence for phonetic-code agreement.
A query failure is caught, yielding no correction. -/
def phoneticMatchVendor (o : FuzzyOracles) (st : CacheState) (word : String) : FuzzyMatchResult :=
  if st.vendorList.isEmpty then noChange word
  else
    match o.phonQuery word with
    | .error _ => noChange word
    | .ok [] => noChange word
    | .ok (best :: _) =>
      if best.soundex_match || best.metaphone_match ||
          (best.edit_distance ≤ 2 && best.phonetic_score > 1/2) then
        let conf0 := max 0 (min 1 best.phonetic_score)
        let confidence :=
          if best.soundex_match && best.metaphone_match then max conf0 (7/10)
          else if best.soundex_match || best.metaphone_match then max conf0 (3/5)
          else conf0
        { original := word, corrected := best.vendor_name,
          wasChanged := jsToLower best.vendor_name ≠ jsToLower word, confidence := confidence }
      else noChange word

def capitalizeWord (s : String) : String :=
  match s.data with
  | [] => ""
  | c :: rest => String.mk (c.toUpper :: rest.map Char.toLower)

/-- `preserveCase`: carry the original word's ALL-CAPS / lowercase /
Capitalized pattern onto the corrected word. -/
def preserveCase (original corrected : String) : String :=
  if original = jsToUpper original then jsToUpper corrected
  else if original = jsToLower original then jsToLower corrected
  else
    match original.data with
    | c :: _ => if c = c.toUpper then capitalizeWord corrected else jsToLower corrected
    | [] => jsToLower corrected

/-- `correctSingleWord`: static-dictionary membership, then (capitalized
words) vendor/product Fuse matching, or (lowercase words) static fuzzy
matching with case preservation before the vendor/product fallback. -/
def correctSingleWord (o : FuzzyOracles) (st : CacheState) (word : String) : String :=
  let wordLower := jsToLower word
  let isCapitalized :=
    match word.data with
    | [] => false
    | c :: _ => c = c.toUpper ∧ c ≠ c.toLower
  if staticDictionary.contains wordLower then word
  else if isCapitalized then
    let vendorMatch := fuzzyMatchVendor o st word
    if vendorMatch.wasChanged ∧ vendorMatch.confidence > 3/5 then vendorMatch.corrected
    else
      let productMatch := fuzzyMatchProduct o st word
      if productMatch.wasChanged ∧ productMatch.confidence > 3/5 then productMatch.corrected
      else word
  else
    let staticMatch := fuzzyMatchStatic wordLower
    if staticMatch.wasChanged ∧ staticMatch.confidence ≥ 1/2 then
      preserveCase word staticMatch.corrected
    else
      let vendorMatch := fuzzyMatchVendor o st word
      if vendorMatch.wasChanged ∧ vendorMatch.confidence > 3/5 then vendorMatch.corrected
      else
        let productMatch := fuzzyMatchProduct o st word
        if productMatch.wasChanged ∧ productMatch.confidence > 3/5 then productMatch.corrected
        else word

/-- `correctSingleWordAsync`: static-dictionary words bypass phonetics;
otherwise a phonetic vendor match above 0.5 confidence is applied, trimmed
to the vendor's first token when the full name is already present or the
confidence is moderate; else fall back to `correctSingleWord`. -/
def correctSingleWordAsync (o : FuzzyOracles) (st : CacheState) (word currentQuery : String)
    (matchedEntities : List String) : String :=
  let wordLower := jsToLower word
  if staticDictionary.contains wordLower then correctSingleWord o st word
  else
    let phoneticMatch := phoneticMatchVendor o st word
    if phoneticMatch.wasChanged ∧ phoneticMatch.confidence > 1/2 then
      let vendorName := phoneticMatch.corrected
      let vendorWords := splitWsStr vendorName
      let currentQueryLower := jsToLower currentQuery
      let vendorAlreadyInQuery :=
        matchedEntities.any (fun e => jsToLower e = jsToLower vendorName) ||
          hasSub (jsToLower vendorName).data currentQueryLower.data
      if vendorAlreadyInQuery then vendorWords.headD ""
      else if vendorWords.length = 1 ∨ phoneticMatch.confidence ≥ 95/100 then vendorName
      else vendorWords.headD ""
    else correctSingleWord o st word

/-- First-occurrence substring replacement,
JS `String.prototype.replace(string, string)`. -/
def replaceFirstCh (pat rep : List Char) : List Char → List Char
  | [] => if leadsWith pat [] then rep else []
  | c :: t =>
    if leadsWith pat (c :: t) then rep ++ (c :: t).drop pat.length
    else c :: replaceFirstCh pat rep t

def replaceFirst (s pat rep : String) : String :=
  String.mk (replaceFirstCh pat.data rep.data s.data)

/-- `correctMultiWordEntities`: for every cached multi-word vendor, then
product, replace the first fuzzy-matching window with the canonical
spelling and record the matched entity. -/
def correctMultiWordEntities (st : CacheState) (query : String) : String × List String :=
  let step := fun (acc : String × List String) (nm : String) =>
    if (splitWsStr nm).length < 2 then acc
    else
      match findFuzzyPhrase acc.1 nm with
      | some mtext => (replaceFirst acc.1 mtext nm, acc.2 ++ [nm])
      | none => acc
  st.productList.foldl step (st.vendorList.foldl step (query, []))

/-- Worker for JS `split(/(\s+)/)` (capturing split: tokens and whitespace
runs alternate, with empty tokens at either end when the string starts or
ends with whitespace). -/
def splitKeepGo : Bool → List Char → List Char → List (List Char)
  | false, cur, [] => [cur.reverse]
  | true, cur, [] => [cur.reverse, []]
  | inSep, cur, c :: rest =>
    if inSep then
      if isSpaceChar c then splitKeepGo true (c :: cur) rest
      else cur.reverse :: splitKeepGo false [c] rest
    else
      if isSpaceChar c then cur.reverse :: splitKeepGo true [c] rest
      else splitKeepGo false (c :: cur) rest

def splitKeepWs (cs : List Char) : List (List Char) :=
  splitKeepGo false [] cs

/-- The per-word step of `correctQuery`'s loop: keep whitespace runs, short
and numeric tokens, tokens with currency/special characters and tokens
already covered by a matched multi-word entity; otherwise correct the word. -/
def processWord (o : FuzzyOracles) (st : CacheState) (currentQuery queryLower : String)
    (matchedEntities : List String) (w : String) : String :=
  if w.data ≠ [] ∧ w.data.all isSpaceChar then w
  else if w.length < 3 ∨ (w.data ≠ [] ∧ w.data.all isDigitChar) then w
  else if w.data.any (fun c => c = '₹' ∨ c = '$' ∨ c = '€' ∨ c = '£' ∨ c = '@' ∨ c = '#' ∨ c = '%') then w
  else
    let wordLower := jsToLower w
    let isPart := matchedEntities.any fun entity =>
      let entityLower := jsToLower entity
      ((splitWsStr entityLower).contains wordLower) && hasSub entityLower.data queryLower.data
    if isPart then w
    else correctSingleWordAsync o st w currentQuery matchedEntities

/-- `correctQuery` of `fuzzy-matching.service.ts`: early return on
empty/whitespace input; otherwise refresh the vocabulary cache, correct
multi-word entities, then correct the remaining words one by one.  Returns
the corrected query together with the resulting cache state. -/
def correctQuery (o : FuzzyOracles) (now : Int) (st : CacheState) (query : String) :
    String × CacheState :=
  if jsTrim query = "" then (query, st)
  else
    let st1 := refreshEntityCache o now st
    let mw := correctMultiWordEntities st1 query
    let correctedQuery := mw.1
    let matchedEntities := mw.2
    let words := (splitKeepWs correctedQuery.data).map String.mk
    let queryLower := jsToLower correctedQuery
    let correctedWords := words.map fun w =>
      processWord o st1 correctedQuery queryLower matchedEntities w
    (jsConcat correctedWords, st1)

/-- `getCacheStats`. -/
def getCacheStats (st : CacheState) : Nat × Nat × Option Int :=
  (st.vendorList.length, st.productList.length, st.lastCacheUpdate)

/-! ### Search service (`search.service.ts`, first version: client-side
sort workaround) -/

structure SearchFilters where
  companyId : Option Int := none
  branchId : Option Int := none
  dateFrom : Option SDate := none
  dateTo : Option SDate := none
  amountMin : Option ℚ := none
  amountMax : Option ℚ := none
  limit : Option Nat := none

/-- One stored `PurchaseInvoice` row as the search queries see it. -/
structure InvoiceRow where
  id : Int
  invoiceNumber : String
  invoiceDate : SDate
  branchId : Int
  vendorName : Option String
  vendorReference : Option String
  billNumber : Option String
  narration : Option String
  totalAmount : ℚ
  embedding : Option (List ℚ)

structure SearchResult where
  id : Int
  invoiceNumber : String
  invoiceDate : SDate
  vendorName : String
  vendorReference : String
  billNumber : String
  narration : String
  totalAmount : ℚ
  similarityScore : ℚ

/-- The observable external calls `semanticSearch` makes, in order. -/
inductive SearchCall where
  | embed (text : String)
  | simQuery
  | filterQuery
deriving DecidableEq, Repr

/-- `filters.limit || 20` (a zero limit is falsy in JS). -/
def effLimit (f : SearchFilters) : Nat :=
  match f.limit with
  | some n => if n = 0 then 20 else n
  | none => 20

/-- The figures the WHERE clause is built from after merging: preprocessed
dates/amounts take precedence (`preprocessed.x || filters.x`,
`preprocessed.x ?? filters.x`), the branch id comes from the caller alone. -/
structure MergedFigures where
  branchId : Option Int
  dateFrom : Option SDate
  dateTo : Option SDate
  amountMin : Option ℚ
  amountMax : Option ℚ

def mergeFigures (pre : PreprocessedQuery) (filters : SearchFilters) : MergedFigures :=
  { branchId := filters.branchId
    dateFrom := match pre.dateFrom with | some d => some d | none => filters.dateFrom
    dateTo := match pre.dateTo with | some d => some d | none => filters.dateTo
    amountMin := match pre.amountMin with | some a => some a | none => filters.amountMin
    amountMax := match pre.amountMax with | some a => some a | none => filters.amountMax }

/-- `if (filters.branchId)`: the branch condition is pushed only for a
truthy (nonzero) branch id. -/
def branchActive (m : MergedFigures) : Bool :=
  match m.branchId with
  | some b => b != 0
  | none => false

/-- `whereConditions.length === 0` (negated). -/
def hasFilterConds (m : MergedFigures) : Bool :=
  branchActive m || m.dateFrom.isSome || m.dateTo.isSome ||
    m.amountMin.isSome || m.amountMax.isSome

/-- A row satisfies every pushed WHERE condition. -/
def rowMatches (m : MergedFigures) (r : InvoiceRow) : Bool :=
  (match m.branchId with
   | some b => if b != 0 then r.branchId == b else true
   | none => true) &&
  (match m.dateFrom with
   | some d => decide (SDate.le d r.invoiceDate)
   | none => true) &&
  (match m.dateTo with
   | some d => decide (SDate.le r.invoiceDate d)
   | none => true) &&
  (match m.amountMin with
   | some a => decide (a ≤ r.totalAmount)
   | none => true) &&
  (match m.amountMax with
   | some a => decide (r.totalAmount ≤ a)
   | none => true)

/-- The semantic query's row set: rows with an embedding that pass every
filter condition, each with its similarity `1 - (embedding <=> query)`,
where `<=>` is the store's cosine-distance capability `dist`. -/
def simRows (dist : List ℚ → List ℚ → ℚ) (qe : List ℚ) (m : MergedFigures)
    (rows : List InvoiceRow) : List (InvoiceRow × ℚ) :=
  rows.filterMap fun r =>
    match r.embedding with
    | none => none
    | some e => if rowMatches m r then some (r, 1 - dist qe e) else none

/-- The client-side comparator `(a, b) => scoreB - scoreA`: descending
similarity. -/
def simDesc (a b : InvoiceRow × ℚ) : Prop :=
  b.2 ≤ a.2

instance : DecidableRel simDesc := fun a b => by unfold simDesc; infer_instance

instance : IsTotal (InvoiceRow × ℚ) simDesc :=
  ⟨fun a b => (le_total b.2 a.2).imp id id⟩

instance : IsTrans (InvoiceRow × ℚ) simDesc :=
  ⟨fun _ _ _ hab hbc => le_trans hbc hab⟩

/-- `ORDER BY "invoiceDate" DESC` of the filter-only query. -/
def dateDesc (a b : InvoiceRow) : Prop :=
  SDate.le b.invoiceDate a.invoiceDate

instance : DecidableRel dateDesc := fun a b => by unfold dateDesc; infer_instance

instance : IsTotal InvoiceRow dateDesc :=
  ⟨fun a b => (total_of SDate.le b.invoiceDate a.invoiceDate).imp id id⟩

instance : IsTrans InvoiceRow dateDesc := ⟨by
  intro a b c hab hbc
  unfold dateDesc at hab hbc ⊢
  exact Trans.trans hbc hab⟩

/-- Row-to-result mapping with null coalescing (`x || ''`, `Number(x) || 0`). -/
def rowToResult (p : InvoiceRow × ℚ) : SearchResult :=
  { id := p.1.id
    invoiceNumber := p.1.invoiceNumber
    invoiceDate := p.1.invoiceDate
    vendorName := p.1.vendorName.getD ""
    vendorReference := p.1.vendorReference.getD ""
    billNumber := p.1.billNumber.getD ""
    narration := p.1.narration.getD ""
    totalAmount := p.1.totalAmount
    similarityScore := p.2 }

/-- Filter-only rows carry `similarityScore = 1.0`. -/
def rowToFilterResult (r : InvoiceRow) : SearchResult :=
  rowToResult (r, 1)

/-- `semanticSearch` of `search.service.ts` (first version).  Collaborators
are the injected preprocessor `P`, the embedding gateway `emb`, the store
`db` (its row set, or a failure) and the store's cosine-distance operator
`dist`.  Alongside the result, the external calls made are recorded.

Semantic path: the embedding is requested (a failure propagates); the
store query fetches every matching row with its similarity but without
ORDER BY, the rows are sorted by descending similarity in JS and sliced to
the limit; a store failure here is caught (`results = []`).  Filter-only
path: matching rows ordered by invoice date descending, `LIMIT :limit`; a
store failure propagates to the caller.  Diagnostic queries that only feed
the logger are not modelled. -/
def semanticSearch (P : String → PreprocessedQuery) (emb : String → Except String (List ℚ))
    (db : Except String (List InvoiceRow)) (dist : List ℚ → List ℚ → ℚ)
    (query : String) (filters : SearchFilters) :
    Except String (List SearchResult) × List SearchCall :=
  let pre := P query
  let normalizedQuery := jsTrim pre.normalizedQuery
  let hasSemanticContent : Bool := normalizedQuery.length != 0
  let limit := effLimit filters
  let m := mergeFigures pre filters
  if !hasFilterConds m && !hasSemanticContent then (.ok [], [])
  else if hasSemanticContent then
    match emb normalizedQuery with
    | .error e => (.error e, [.embed normalizedQuery])
    | .ok qe =>
      match db with
      | .error _ => (.ok [], [.embed normalizedQuery, .simQuery])
      | .ok rows =>
        let ranked := (List.insertionSort simDesc (simRows dist qe m rows)).take limit
        (.ok (ranked.map rowToResult), [.embed normalizedQuery, .simQuery])
  else
    match db with
    | .error e => (.error e, [.filterQuery])
    | .ok rows =>
      let picked := (List.insertionSort dateDesc (rows.filter (rowMatches m))).take limit
      (.ok (picked.map rowToFilterResult), [.filterQuery])

/-! ### C9: stop-word removal is idempotent -/

theorem splitGo_no_space :
    ∀ (cs : List Char) (inSep : Bool) (cur : List Char),
      (∀ c ∈ cur, isSpaceChar c = false) →
      ∀ w ∈ splitGo inSep cur cs, ∀ c ∈ w, isSpaceChar c = false := by
  intro cs
  induction cs with
  | nil =>
    intro inSep cur hcur w hw c hc
    have hwc : w = cur.reverse := by
      rcases List.mem_cons.1 hw with h | h
      · exact h
      · exact absurd h (List.not_mem_nil w)
    subst hwc
    exact hcur c (List.mem_reverse.1 hc)
  | cons x rest ih =>
    intro inSep cur hcur w hw c hc
    rw [splitGo] at hw
    by_cases hx : isSpaceChar x
    · rw [if_pos hx] at hw
      cases inSep with
      | true =>
        simp only [if_pos rfl] at hw
        exact ih true [] (by intro c hcc; exact absurd hcc (List.not_mem_nil c)) w hw c hc
      | false =>
        simp only [Bool.false_eq_true, if_neg] at hw
        rcases List.mem_cons.1 hw with h | h
        · subst h
          exact hcur c (List.mem_reverse.1 hc)
        · exact ih true [] (by intro c hcc; exact absurd hcc (List.not_mem_nil c)) w h c hc
    · rw [if_neg hx] at hw
      refine ih false (x :: cur) ?_ w hw c hc
      intro c hcc
      rcases List.mem_cons.1 hcc with rfl | hcc
      · exact Bool.not_eq_true (isSpaceChar c) ▸ (by simpa using hx)
      · exact hcur c hcc

theorem splitWs_no_space (cs : List Char) :
    ∀ w ∈ splitWs cs, ∀ c ∈ w, isSpaceChar c = false :=
  splitGo_no_space cs false [] (by intro c hc; exact absurd hc (List.not_mem_nil c))

theorem splitGo_append (w : List Char) (hw : ∀ c ∈ w, isSpaceChar c = false) :
    ∀ (cur rest : List Char),
      splitGo false cur (w ++ rest) = splitGo false (w.reverse ++ cur) rest := by
  induction w with
  | nil => intro cur rest; simp
  | cons x xs ih =>
    intro cur rest
    have hx : isSpaceChar x = false := hw x (List.mem_cons_self x xs)
    show splitGo false cur (x :: (xs ++ rest)) = _
    rw [splitGo, if_neg (by simp [hx])]
    rw [ih (fun c hc => hw c (List.mem_cons_of_mem x hc)) (x :: cur) rest]
    congr 1
    simp

theorem splitGo_true_of_head (cs : List Char)
    (h : ∀ c t, cs = c :: t → isSpaceChar c = false) :
    splitGo true [] cs = splitGo false [] cs := by
  cases cs with
  | nil => rfl
  | cons c t =>
    have hc := h c t rfl
    rw [splitGo, splitGo, if_neg (by simp [hc]), if_neg (by simp [hc])]

theorem joinSp_cons_cons (w w2 : List Char) (t : List (List Char)) :
    joinSp (w :: w2 :: t) = w ++ ' ' :: joinSp (w2 :: t) := rfl

theorem splitWs_joinSp :
    ∀ (ws : List (List Char)), ws ≠ [] →
      (∀ w ∈ ws, w ≠ [] ∧ ∀ c ∈ w, isSpaceChar c = false) →
      splitWs (joinSp ws) = ws := by
  intro ws
  induction ws with
  | nil => intro h; exact absurd rfl h
  | cons w ws2 ih =>
    intro _ hall
    obtain ⟨hwne, hwsp⟩ := hall w (List.mem_cons_self w ws2)
    rcases ws2 with _ | ⟨w2, t⟩
    · show splitGo false [] (joinSp [w]) = [w]
      have h1 : joinSp [w] = w ++ [] := by simp [joinSp]
      rw [h1, splitGo_append w hwsp [] []]
      simp [splitGo]
    · rw [joinSp_cons_cons]
      show splitGo false [] (w ++ ' ' :: joinSp (w2 :: t)) = _
      rw [splitGo_append w hwsp [] (' ' :: joinSp (w2 :: t))]
      rw [splitGo, if_pos (by decide), if_neg (by decide)]
      obtain ⟨hw2ne, _⟩ := hall w2 (List.mem_cons_of_mem w (List.mem_cons_self w2 t))
      have hjoin : ∃ X, joinSp (w2 :: t) = w2 ++ X := by
        cases t with
        | nil => exact ⟨[], by simp [joinSp]⟩
        | cons a b => exact ⟨' ' :: joinSp (a :: b), rfl⟩
      obtain ⟨X, hX⟩ := hjoin
      have hhead : ∀ c ct, joinSp (w2 :: t) = c :: ct → isSpaceChar c = false := by
        intro c ct hj
        obtain ⟨y, ys, hw2⟩ : ∃ y ys, w2 = y :: ys := by
          cases w2 with
          | nil => exact absurd rfl hw2ne
          | cons y ys => exact ⟨y, ys, rfl⟩
        have hy : isSpaceChar y = false := by
          refine (hall w2 (List.mem_cons_of_mem w (List.mem_cons_self _ t))).2 y ?_
          rw [hw2]; exact List.mem_cons_self y ys
        rw [hX, hw2] at hj
        simp only [List.cons_append] at hj
        injection hj with h1 _
        rw [← h1]
        exact hy
      rw [splitGo_true_of_head (joinSp (w2 :: t)) hhead]
      have ihr := ih (List.cons_ne_nil w2 t)
        (fun v hv => hall v (List.mem_cons_of_mem w hv))
      show (w.reverse ++ []).reverse :: splitWs (joinSp (w2 :: t)) = w :: w2 :: t
      rw [ihr]
      simp

theorem keepWord_ne_nil {w : List Char} (h : keepWord w = true) : w ≠ [] := by
  intro hnil
  subst hnil
  exact absurd h (by decide)

/-- **C9.**  Stop-word removal is idempotent: for every input string `x`,
`removeStopWords (removeStopWords x) = removeStopWords x`. -/
theorem c9_removeStopWords_idempotent (x : String) :
    removeStopWords (removeStopWords x) = removeStopWords x := by
  unfold removeStopWords
  have hdata : (String.mk (joinSp ((splitWs x.data).filter keepWord))).data =
      joinSp ((splitWs x.data).filter keepWord) := rfl
  rw [hdata]
  rcases hws : (splitWs x.data).filter keepWord with _ | ⟨w, ws2⟩
  · rfl
  · have hne : w :: ws2 ≠ [] := List.cons_ne_nil w ws2
    have hall : ∀ v ∈ w :: ws2, v ≠ [] ∧ ∀ c ∈ v, isSpaceChar c = false := by
      intro v hv
      have hvfil : v ∈ (splitWs x.data).filter keepWord := hws ▸ hv
      have hkeep : keepWord v = true := List.of_mem_filter hvfil
      have hvmem : v ∈ splitWs x.data := List.mem_of_mem_filter hvfil
      exact ⟨keepWord_ne_nil hkeep, splitWs_no_space x.data v hvmem⟩
    rw [splitWs_joinSp (w :: ws2) hne hall]
    have hfil : (w :: ws2).filter keepWord = w :: ws2 := by
      rw [List.filter_eq_self]
      intro v hv
      have hvfil : v ∈ (splitWs x.data).filter keepWord := hws ▸ hv
      exact List.of_mem_filter hvfil
    rw [hfil]

/-! ### C7: fuzzy-phrase window acceptance -/

/-- The spec's per-pair normalized edit-distance similarity
`1 - distance / maxLen` (tokens compared lower-cased, as the source does). -/
def pairSimilarity (c t : String) : ℚ :=
  1 - (levenshteinDistance (jsToLower c) (jsToLower t) : ℚ) / ((Nat.max c.length t.length : Nat) : ℚ)

/-- The spec's summed edit distance across the aligned window. -/
def windowDistanceSum (cand targ : List String) : Nat :=
  ((cand.zip targ).map fun p => levenshteinDistance (jsToLower p.1) (jsToLower p.2)).sum

theorem windowLoop_eq :
    ∀ (cand targ : List String) (acc : Nat), cand.length = targ.length →
      ((∀ p ∈ cand.zip targ, (3 : ℚ)/5 ≤ pairSimilarity p.1 p.2) →
        windowLoop cand targ acc = some (acc + windowDistanceSum cand targ)) ∧
      ((¬ ∀ p ∈ cand.zip targ, (3 : ℚ)/5 ≤ pairSimilarity p.1 p.2) →
        windowLoop cand targ acc = none) := by
  intro cand
  induction cand with
  | nil =>
    intro targ acc hlen
    cases targ with
    | nil =>
      refine ⟨fun _ => ?_, fun hno => ?_⟩
      · simp [windowLoop, windowDistanceSum]
      · exact absurd (by intro p hp; exact absurd hp (List.not_mem_nil p)) hno
    | cons t ts => cases hlen
  | cons c cs ih =>
    intro targ acc hlen
    cases targ with
    | nil => cases hlen
    | cons t ts =>
      have hlen2 : cs.length = ts.length := by
        simpa using hlen
      have hloop : windowLoop (c :: cs) (t :: ts) acc =
          if pairSimilarity c t < 3/5 then none
          else windowLoop cs ts (acc + levenshteinDistance (jsToLower c) (jsToLower t)) := by
        rfl
      by_cases hsim : pairSimilarity c t < 3/5
      · rw [hloop, if_pos hsim]
        refine ⟨fun hall => ?_, fun _ => rfl⟩
        exact absurd (hall (c, t) (by simp)) (by simpa using hsim)
      · rw [hloop, if_neg hsim]
        obtain ⟨ihp, ihn⟩ := ih ts (acc + levenshteinDistance (jsToLower c) (jsToLower t)) hlen2
        refine ⟨fun hall => ?_, fun hno => ?_⟩
        · rw [ihp (fun p hp => hall p (List.mem_cons_of_mem _ hp))]
          have : windowDistanceSum (c :: cs) (t :: ts) =
              levenshteinDistance (jsToLower c) (jsToLower t) + windowDistanceSum cs ts := by
            simp [windowDistanceSum]
          rw [this]
          congr 1
          omega
        · refine ihn fun htail => hno ?_
          intro p hp
          rcases List.mem_cons.1 (by simpa [List.zip] using hp) with rfl | hp2
          · exact le_of_not_lt hsim
          · exact htail p hp2

/-- **C7.**  A window of query tokens is accepted as a match for a
vocabulary name iff every aligned token pair has normalized edit-distance
similarity at least 0.6 and the summed edit distance across the window is
at most twice the token count; in particular, for a two-token name, one
pair below 0.6 similarity rejects the phrase regardless of the other pair. -/
theorem c7_fuzzy_phrase_acceptance :
    (∀ (cand targ : List String), cand.length = targ.length →
      (phraseWindowOk cand targ = true ↔
        (∀ p ∈ cand.zip targ, (3 : ℚ)/5 ≤ pairSimilarity p.1 p.2) ∧
          windowDistanceSum cand targ ≤ 2 * targ.length)) ∧
    (∀ c1 c2 t1 t2 : String, pairSimilarity c1 t1 < 3/5 →
      phraseWindowOk [c1, c2] [t1, t2] = false) := by
  constructor
  · intro cand targ hlen
    obtain ⟨hp, hn⟩ := windowLoop_eq cand targ 0 hlen
    by_cases hall : ∀ p ∈ cand.zip targ, (3 : ℚ)/5 ≤ pairSimilarity p.1 p.2
    · unfold phraseWindowOk
      rw [hp hall]
      simp only [Nat.zero_add]
      constructor
      · intro h
        have h2 := of_decide_eq_true h
        exact ⟨hall, by omega⟩
      · rintro ⟨-, h2⟩
        exact decide_eq_true (by omega)
    · unfold phraseWindowOk
      rw [hn hall]
      simp only [Bool.false_eq_true, false_iff]
      intro h
      exact hall h.1
  · intro c1 c2 t1 t2 hsim
    have hw : windowLoop [c1, c2] [t1, t2] 0 = none := by
      show (if pairSimilarity c1 t1 < 3/5 then none
        else windowLoop [c2] [t2] (0 + levenshteinDistance (jsToLower c1) (jsToLower t1))) = none
      rw [if_pos hsim]
    unfold phraseWindowOk
    rw [hw]

/-- Witness for C7 at concrete inputs: `["Gowrav", "Enterprises"]` is
accepted for the vendor `["Gaurav", "Enterprises"]` (both pairs clear the
0.6 bar, summed distance 2 ≤ 4), while `["Go", "Enterprises"]` is rejected
because its first pair falls below 0.6 similarity. -/
theorem c7_fuzzy_phrase_acceptance_witness :
    phraseWindowOk ["Gowrav", "Enterprises"] ["Gaurav", "Enterprises"] = true ∧
    phraseWindowOk ["Go", "Enterprises"] ["Gaurav", "Enterprises"] = false := by
  have hlev1 : levenshteinDistance (jsToLower "Gowrav") (jsToLower "Gaurav") = 2 := by decide
  have hlev3 : levenshteinDistance (jsToLower "Go") (jsToLower "Gaurav") = 5 := by decide
  constructor
  · apply (c7_fuzzy_phrase_acceptance.1 ["Gowrav", "Enterprises"] ["Gaurav", "Enterprises"]
      rfl).2
    constructor
    · intro p hp
      have hz : List.zip ["Gowrav", "Enterprises"] ["Gaurav", "Enterprises"] =
          [("Gowrav", "Gaurav"), ("Enterprises", "Enterprises")] := rfl
      rw [hz] at hp
      rcases List.mem_cons.1 hp with rfl | hp2
      · unfold pairSimilarity
        rw [hlev1, show Nat.max (String.length "Gowrav") (String.length "Gaurav") = 6 from rfl]
        norm_num
      · rcases List.mem_cons.1 hp2 with rfl | hp3
        · unfold pairSimilarity
          rw [show levenshteinDistance (jsToLower "Enterprises") (jsToLower "Enterprises") = 0
            from by decide]
          norm_num
        · cases hp3
    · rw [show windowDistanceSum ["Gowrav", "Enterprises"] ["Gaurav", "Enterprises"] = 2
        from by decide]
      decide
  · exact c7_fuzzy_phrase_acceptance.2 "Go" "Enterprises" "Gaurav" "Enterprises" (by
      unfold pairSimilarity
      rw [hlev3, show Nat.max (String.length "Go") (String.length "Gaurav") = 6 from rfl]
      norm_num)

/-! ### C3: the amount range policy -/

theorem sortedDedupBounds (l : List ℚ) (u : ℚ) (us : List ℚ)
    (h : List.insertionSort (· ≤ ·) (dedupFirst l) = u :: us) :
    u ∈ l ∧ (u :: us).getLast (List.cons_ne_nil u us) ∈ l ∧
      ∀ x ∈ l, u ≤ x ∧ x ≤ (u :: us).getLast (List.cons_ne_nil u us) := by
  have hsorted : List.Sorted (· ≤ ·) (u :: us) := h ▸ List.sorted_insertionSort _ _
  have hmemiff : ∀ x : ℚ, x ∈ u :: us ↔ x ∈ l := by
    intro x
    rw [← h, List.mem_insertionSort, mem_dedupFirst]
  refine ⟨(hmemiff u).1 (List.mem_cons_self u us),
    (hmemiff _).1 (List.getLast_mem (List.cons_ne_nil u us)), ?_⟩
  intro x hx
  have hx2 : x ∈ u :: us := (hmemiff x).2 hx
  exact ⟨sortedHeadRel le_refl hsorted x hx2,
    sortedRelGetLast le_refl (u :: us) hsorted (List.cons_ne_nil u us) x hx2⟩

theorem extractAmounts_eq (nerMoney : String → List ℚ) (q : String) (u : ℚ) (us : List ℚ)
    (hs : List.insertionSort (· ≤ ·) (dedupFirst (collectedAmounts nerMoney q)) = u :: us) :
    extractAmounts nerMoney q =
      if rangeTestScan q.data then
        { amountMin := some u, amountMax := some ((u :: us).getLast (List.cons_ne_nil u us)) }
      else if us = [] then
        { amountMin := some (max 0 (u - u * (1/10))), amountMax := some (u + u * (1/10)) }
      else
        { amountMin := some u, amountMax := some ((u :: us).getLast (List.cons_ne_nil u us)) } := by
  have hne : collectedAmounts nerMoney q ≠ [] := by
    intro h0
    rw [h0] at hs
    simp [dedupFirst, dedupFirst.go] at hs
  have hempty : (collectedAmounts nerMoney q).isEmpty = false := by
    cases hc : collectedAmounts nerMoney q with
    | nil => exact absurd hc hne
    | cons a t => rfl
  unfold extractAmounts
  simp only [hempty, Bool.false_eq_true, if_false, hs]

/-- **C3.**  Amount extraction policy: with `found` the collected amounts,
an explicit range pattern yields exactly the minimum and maximum of
`found`; exactly one distinct amount `A` yields the ±10 % band
`(max 0 (A·0.9), A·1.1)`; two or more distinct amounts without a range
keyword yield the minimum and maximum. -/
theorem c3_amount_policy (nerMoney : String → List ℚ) (q : String) :
    (rangeTestScan q.data = true → collectedAmounts nerMoney q ≠ [] →
      ∃ lo hi, extractAmounts nerMoney q = ⟨some lo, some hi⟩ ∧
        lo ∈ collectedAmounts nerMoney q ∧ hi ∈ collectedAmounts nerMoney q ∧
        ∀ x ∈ collectedAmounts nerMoney q, lo ≤ x ∧ x ≤ hi) ∧
    (∀ A : ℚ, rangeTestScan q.data = false → collectedAmounts nerMoney q ≠ [] →
      (∀ x ∈ collectedAmounts nerMoney q, x = A) →
      extractAmounts nerMoney q = ⟨some (max 0 (A * (9/10))), some (A * (11/10))⟩) ∧
    (rangeTestScan q.data = false →
      (∃ x ∈ collectedAmounts nerMoney q, ∃ y ∈ collectedAmounts nerMoney q, x ≠ y) →
      ∃ lo hi, extractAmounts nerMoney q = ⟨some lo, some hi⟩ ∧
        lo ∈ collectedAmounts nerMoney q ∧ hi ∈ collectedAmounts nerMoney q ∧
        ∀ x ∈ collectedAmounts nerMoney q, lo ≤ x ∧ x ≤ hi) := by
  refine ⟨?_, ?_, ?_⟩
  · intro hrange hne
    obtain ⟨u, us, hs⟩ : ∃ u us,
        List.insertionSort (· ≤ ·) (dedupFirst (collectedAmounts nerMoney q)) = u :: us := by
      cases hs : List.insertionSort (· ≤ ·) (dedupFirst (collectedAmounts nerMoney q)) with
      | nil =>
        have hlen := List.length_insertionSort (r := (· ≤ ·))
          (dedupFirst (collectedAmounts nerMoney q))
        rw [hs] at hlen
        have : dedupFirst (collectedAmounts nerMoney q) = [] :=
          List.eq_nil_of_length_eq_zero hlen.symm
        exact absurd this (dedupFirst_ne_nil _ hne)
      | cons u us => exact ⟨u, us, rfl⟩
    obtain ⟨hu, hlast, hbound⟩ := sortedDedupBounds _ u us hs
    refine ⟨u, (u :: us).getLast (List.cons_ne_nil u us), ?_, hu, hlast, hbound⟩
    rw [extractAmounts_eq nerMoney q u us hs, if_pos hrange]
  · intro A hrange hne hall
    have hded : dedupFirst (collectedAmounts nerMoney q) = [A] :=
      dedupFirst_all_eq _ A hne hall
    have hs : List.insertionSort (· ≤ ·) (dedupFirst (collectedAmounts nerMoney q)) = [A] := by
      rw [hded]
      rfl
    rw [extractAmounts_eq nerMoney q A [] hs, if_neg (by rw [hrange]; exact Bool.false_ne_true),
      if_pos rfl]
    have h1 : A - A * (1/10) = A * (9/10) := by ring
    have h2 : A + A * (1/10) = A * (11/10) := by ring
    rw [h1, h2]
  · intro hrange hdist
    obtain ⟨x, hx, y, hy, hxy⟩ := hdist
    have hne : collectedAmounts nerMoney q ≠ [] := by
      intro h0
      rw [h0] at hx
      exact absurd hx (List.not_mem_nil x)
    obtain ⟨u, us, hs⟩ : ∃ u us,
        List.insertionSort (· ≤ ·) (dedupFirst (collectedAmounts nerMoney q)) = u :: us := by
      cases hs : List.insertionSort (· ≤ ·) (dedupFirst (collectedAmounts nerMoney q)) with
      | nil =>
        have hlen := List.length_insertionSort (r := (· ≤ ·))
          (dedupFirst (collectedAmounts nerMoney q))
        rw [hs] at hlen
        have : dedupFirst (collectedAmounts nerMoney q) = [] :=
          List.eq_nil_of_length_eq_zero hlen.symm
        exact absurd this (dedupFirst_ne_nil _ hne)
      | cons u us => exact ⟨u, us, rfl⟩
    have husne : us ≠ [] := by
      intro h0
      subst h0
      have hmemiff : ∀ z : ℚ, z ∈ [u] ↔ z ∈ collectedAmounts nerMoney q := by
        intro z
        rw [← hs, List.mem_insertionSort, mem_dedupFirst]
      have hxu : x = u := by
        have := (hmemiff x).2 hx
        simpa using this
      have hyu : y = u := by
        have := (hmemiff y).2 hy
        simpa using this
      exact hxy (hxu.trans hyu.symm)
    obtain ⟨hu, hlast, hbound⟩ := sortedDedupBounds _ u us hs
    refine ⟨u, (u :: us).getLast (List.cons_ne_nil u us), ?_, hu, hlast, hbound⟩
    rw [extractAmounts_eq nerMoney q u us hs, if_neg (by rw [hrange]; exact Bool.false_ne_true),
      if_neg husne]

/-- Witness for C3: `"between 1000 and 2000"` yields exactly 1000/2000 with
no tolerance, and a lone `5000` (as in `"find invoices around 5000
rupees"`) yields the ±10 % band 4500/5500.  The NLP money oracle finds
nothing, so the regex scanners collect the amounts. -/
theorem c3_amount_policy_witness :
    extractAmounts (fun _ => []) "find invoices around 5000 rupees" =
      ⟨some (4500 : ℚ), some (5500 : ℚ)⟩ ∧
    (∃ lo hi, extractAmounts (fun _ => []) "between 1000 and 2000" = ⟨some lo, some hi⟩ ∧
      lo ∈ collectedAmounts (fun _ => []) "between 1000 and 2000" ∧
      hi ∈ collectedAmounts (fun _ => []) "between 1000 and 2000" ∧
      ∀ x ∈ collectedAmounts (fun _ => []) "between 1000 and 2000", lo ≤ x ∧ x ≤ hi) := by
  constructor
  · have h := (c3_amount_policy (fun _ => []) "find invoices around 5000 rupees").2.1
      5000 (by decide) (by decide) (by decide)
    rw [h]
    norm_num
  · exact (c3_amount_policy (fun _ => []) "between 1000 and 2000").1 (by decide) (by decide)

/-! ### C2: filter merging -/

/-- **C2.**  In the merge step of the search operation, for each of the
date and amount dimensions the caller-supplied filter value is used only
when the preprocessor produced nothing for it (a preprocessor value always
wins), and the branch id comes from the caller alone, whatever the
preprocessor extracted from the query text. -/
theorem c2_filter_merging (pre : PreprocessedQuery) (f : SearchFilters) :
    ((pre.dateFrom = none → (mergeFigures pre f).dateFrom = f.dateFrom) ∧
     (∀ d, pre.dateFrom = some d → (mergeFigures pre f).dateFrom = some d)) ∧
    ((pre.dateTo = none → (mergeFigures pre f).dateTo = f.dateTo) ∧
     (∀ d, pre.dateTo = some d → (mergeFigures pre f).dateTo = some d)) ∧
    ((pre.amountMin = none → (mergeFigures pre f).amountMin = f.amountMin) ∧
     (∀ a, pre.amountMin = some a → (mergeFigures pre f).amountMin = some a)) ∧
    ((pre.amountMax = none → (mergeFigures pre f).amountMax = f.amountMax) ∧
     (∀ a, pre.amountMax = some a → (mergeFigures pre f).amountMax = some a)) ∧
    (mergeFigures pre f).branchId = f.branchId := by
  refine ⟨⟨?_, ?_⟩, ⟨?_, ?_⟩, ⟨?_, ?_⟩, ⟨?_, ?_⟩, rfl⟩ <;>
    first
    | (intro h; simp [mergeFigures, h])
    | (intro d h; simp [mergeFigures, h])

/-- Witness for C2 at concrete inputs: with no preprocessor figures the
caller's values flow through; a preprocessor date beats the caller's. -/
theorem c2_filter_merging_witness :
    (mergeFigures { normalizedQuery := "" }
        { branchId := some 7, dateFrom := some ⟨2024, 0, 1⟩, amountMin := some 5 }).dateFrom =
      some ⟨2024, 0, 1⟩ ∧
    (mergeFigures { normalizedQuery := "x", dateFrom := some ⟨2025, 3, 1⟩ }
        { dateFrom := some ⟨2024, 0, 1⟩ }).dateFrom = some ⟨2025, 3, 1⟩ ∧
    (mergeFigures { normalizedQuery := "" }
        { branchId := some 7, dateFrom := some ⟨2024, 0, 1⟩, amountMin := some 5 }).branchId =
      some 7 := by
  refine ⟨?_, ?_, ?_⟩
  · exact (c2_filter_merging { normalizedQuery := "" } _).1.1 rfl
  · exact (c2_filter_merging { normalizedQuery := "x", dateFrom := some ⟨2025, 3, 1⟩ } _).1.2
      ⟨2025, 3, 1⟩ rfl
  · exact (c2_filter_merging { normalizedQuery := "" } _).2.2.2.2

/-! ### C4: the `last <month-name>` date rule -/

/-- **C4.**  When the query (lower-cased) matches `last <month-name>` —
the first rule of the date cascade — `extractDates` returns the full
calendar month of that name in the most recent year in which it is not
later than the current month: the current year when the month index does
not exceed the current month's, the previous year otherwise.  This holds
for every chrono oracle, since the rule fires before the fallback. -/
theorem c4_last_month_name (now : JsNow) (chronoParse : String → List ChronoHit)
    (q : String) (m : Nat)
    (hscan : scanLastMonthName false (jsToLower q).data = some m) :
    ∃ ty : Int,
      (m ≤ (now.month : Nat) → ty = now.year) ∧
      ((now.month : Nat) < m → ty = now.year - 1) ∧
      extractDates now chronoParse q =
        { dateFrom := some ⟨ty, m, 1⟩, dateTo := some ⟨ty, m, daysInMonth ty m⟩ } := by
  have hm12 : m < 12 := scanLastMonthName_lt_12 false _ m hscan
  refine ⟨if (now.month : Nat) < m then now.year - 1 else now.year, ?_, ?_, ?_⟩
  · intro h
    rw [if_neg (Nat.not_lt.2 h)]
  · intro h
    rw [if_pos h]
  · unfold extractDates
    simp only [hscan]
    have hdz : dateZero (if (now.month : Nat) < m then now.year - 1 else now.year)
        ((m : Int) + 1) =
        ⟨if (now.month : Nat) < m then now.year - 1 else now.year, m,
          daysInMonth (if (now.month : Nat) < m then now.year - 1 else now.year) m⟩ := by
      unfold dateZero
      have h1 : ((m : Int) + 1) - 1 = (m : Int) := by ring
      rw [h1, normYM_of_lt _ m hm12]
    rw [hdz]

/-- Witness for C4: `"invoices last april"` evaluated on 2026-10-11
(month index 9): April (index 3) has already occurred, so the range is
2026-04-01 to 2026-04-30. -/
theorem c4_last_month_name_witness :
    ∃ ty : Int,
      (3 ≤ (((9 : Fin 12)) : Nat) → ty = (2026 : Int)) ∧
      ((((9 : Fin 12)) : Nat) < 3 → ty = (2026 : Int) - 1) ∧
      extractDates ⟨2026, 9, 11, 6⟩ (fun _ => []) "invoices last april" =
        { dateFrom := some ⟨ty, 3, 1⟩, dateTo := some ⟨ty, 3, daysInMonth ty 3⟩ } :=
  c4_last_month_name ⟨2026, 9, 11, 6⟩ (fun _ => []) "invoices last april" 3 (by decide)

/-! ### C6: empty query, empty filters -/

/-- **C6.**  Searching with an empty query string and no filters returns an
empty result list without invoking the embedding gateway or any store
query: the recorded call list is empty, for every oracle. -/
theorem c6_empty_query (now : JsNow) (o : PreprocessOracles)
    (emb : String → Except String (List ℚ)) (db : Except String (List InvoiceRow))
    (dist : List ℚ → List ℚ → ℚ) :
    semanticSearch (preprocessQuery now o) emb db dist "" {} = (.ok [], []) := rfl

/-! ### Collected amounts are positive (the source's `amount > 0` guards) -/

theorem currencySymM_pos :
    ∀ cs vs r, currencySymM cs = some (vs, r) → ∀ v ∈ vs, 0 < v :=
  mv1_pos currencySymCore

theorem currencyWordM_pos :
    ∀ cs vs r, currencyWordM cs = some (vs, r) → ∀ v ∈ vs, 0 < v :=
  mv1_pos currencyWordCore

theorem bigNumM_pos :
    ∀ cs vs r, bigNumM cs = some (vs, r) → ∀ v ∈ vs, 0 < v :=
  mv1_pos bigNumCore

theorem rangeM_pos :
    ∀ cs vs r, rangeM cs = some (vs, r) → ∀ v ∈ vs, 0 < v :=
  mv2_pos rangeCore

theorem numToNumM_pos :
    ∀ cs vs r, numToNumM cs = some (vs, r) → ∀ v ∈ vs, 0 < v :=
  mv2_pos numToNumCore

theorem scanWithGo_pos (m : List Char → Option (List ℚ × List Char))
    (hm : ∀ cs vs r, m cs = some (vs, r) → ∀ v ∈ vs, 0 < v) :
    ∀ (fuel : Nat) (cs : List Char), ∀ v ∈ scanWithGo m fuel cs, 0 < v := by
  intro fuel
  induction fuel with
  | zero =>
    intro cs v hv
    cases cs with
    | nil => exact absurd hv (List.not_mem_nil v)
    | cons c rest => exact absurd hv (List.not_mem_nil v)
  | succ k ih =>
    intro cs v hv
    cases cs with
    | nil => exact absurd hv (List.not_mem_nil v)
    | cons c rest =>
      unfold scanWithGo at hv
      split at hv
      · rename_i vs r heq
        split at hv
        · rcases List.mem_append.1 hv with hv2 | hv2
          · exact hm _ vs r heq v hv2
          · exact ih r v hv2
        · exact ih rest v hv
      · exact ih rest v hv

theorem scanWithBGo_pos (m : List Char → Option (List ℚ × List Char))
    (hm : ∀ cs vs r, m cs = some (vs, r) → ∀ v ∈ vs, 0 < v) :
    ∀ (fuel : Nat) (b : Bool) (cs : List Char), ∀ v ∈ scanWithBGo m fuel b cs, 0 < v := by
  intro fuel
  induction fuel with
  | zero =>
    intro b cs v hv
    cases cs with
    | nil => exact absurd hv (List.not_mem_nil v)
    | cons c rest => exact absurd hv (List.not_mem_nil v)
  | succ k ih =>
    intro b cs v hv
    cases cs with
    | nil => exact absurd hv (List.not_mem_nil v)
    | cons c rest =>
      unfold scanWithBGo at hv
      split at hv
      · exact ih _ rest v hv
      · split at hv
        · rename_i vs r heq
          split at hv
          · rcases List.mem_append.1 hv with hv2 | hv2
            · exact hm _ vs r heq v hv2
            · exact ih true r v hv2
          · exact ih _ rest v hv
        · exact ih _ rest v hv

theorem collectRegexAmounts_pos (cs : List Char) :
    ∀ v ∈ collectRegexAmounts cs, 0 < v := by
  intro v hv
  unfold collectRegexAmounts at hv
  rcases List.mem_append.1 hv with hv | hv
  rotate_left
  · exact scanWithGo_pos numToNumM numToNumM_pos _ _ v hv
  rcases List.mem_append.1 hv with hv | hv
  rotate_left
  · exact scanWithGo_pos rangeM rangeM_pos _ _ v hv
  rcases List.mem_append.1 hv with hv | hv
  rotate_left
  · exact scanWithBGo_pos bigNumM bigNumM_pos _ _ _ v hv
  rcases List.mem_append.1 hv with hv | hv
  · exact scanWithGo_pos currencySymM currencySymM_pos _ _ v hv
  · exact scanWithGo_pos currencyWordM currencyWordM_pos _ _ v hv

theorem collectedAmounts_pos (nerMoney : String → List ℚ) (q : String) :
    ∀ v ∈ collectedAmounts nerMoney q, 0 < v := by
  intro v hv
  have hv2 : v ∈ (if (List.filter (fun a => decide (0 < a)) (nerMoney q)).isEmpty = true
      then collectRegexAmounts q.data
      else List.filter (fun a => decide (0 < a)) (nerMoney q)) := hv
  split at hv2
  · exact collectRegexAmounts_pos q.data v hv2
  · exact of_decide_eq_true (List.mem_filter.1 hv2).2

/-! ### Both-or-neither and non-inversion invariants of the extractions -/

theorem monthFirstDay_le_dateZero (y : Int) (mi : Int) :
    SDate.le (monthFirstDay y mi) (dateZero y (mi + 1)) := by
  have h1 : (mi + 1) - 1 = mi := by ring
  unfold monthFirstDay dateZero
  rw [h1]
  have h2 := one_le_daysInMonth (normYM y mi).1 (normYM y mi).2
  unfold SDate.le
  dsimp only
  omega

/-- `extractDates` sets both endpoints or neither, and never an inverted
range. -/
theorem extractDates_inv (now : JsNow) (chronoParse : String → List ChronoHit) (q : String) :
    ((extractDates now chronoParse q).dateFrom = none ∧
      (extractDates now chronoParse q).dateTo = none) ∨
    (∃ a b, (extractDates now chronoParse q).dateFrom = some a ∧
      (extractDates now chronoParse q).dateTo = some b ∧ SDate.le a b) := by
  unfold extractDates
  dsimp only
  split
  · rename_i m hscan
    right
    have hm12 : m < 12 := scanLastMonthName_lt_12 false _ m hscan
    refine ⟨_, _, rfl, rfl, ?_⟩
    unfold dateZero
    have h1 : ((m : Int) + 1) - 1 = (m : Int) := by ring
    rw [h1, normYM_of_lt _ m hm12]
    unfold SDate.le
    have := one_le_daysInMonth (if (now.month : Nat) < m then now.year - 1 else now.year) m
    dsimp only
    omega
  · split
    · right
      refine ⟨_, _, rfl, rfl, ?_⟩
      have h := monthFirstDay_le_dateZero now.year (((now.month : Nat) : Int) - 1)
      have h2 : (((now.month : Nat) : Int) - 1) + 1 = ((now.month : Nat) : Int) := by ring
      rw [h2] at h
      exact h
    · split
      · right
        exact ⟨_, _, rfl, rfl, le_addDays _ 6⟩
      · split
        · rename_i mi yr hscan
          right
          have hm12 : mi < 12 := scanMonthYear_lt_12 false _ mi yr hscan
          refine ⟨_, _, rfl, rfl, ?_⟩
          unfold dateZero
          have h1 : ((mi : Int) + 1) - 1 = (mi : Int) := by ring
          rw [h1, normYM_of_lt _ mi hm12]
          unfold SDate.le
          have := one_le_daysInMonth (yr : Int) mi
          dsimp only
          omega
        · split
          · left
            exact ⟨rfl, rfl⟩
          · rename_i d ds hsort
            have hsorted : List.Sorted SDate.le (d :: ds) :=
              hsort ▸ List.sorted_insertionSort SDate.le _
            have hle : SDate.le d ((d :: ds).getLast (List.cons_ne_nil d ds)) :=
              sortedHeadRel SDate.le_refl hsorted _
                (List.getLast_mem (List.cons_ne_nil d ds))
            right
            split
            · exact ⟨_, _, rfl, rfl, hle⟩
            · split
              · exact ⟨_, _, rfl, rfl, SDate.le_refl d⟩
              · exact ⟨_, _, rfl, rfl, hle⟩

/-- `extractAmounts` sets both bounds or neither, and never an inverted
range. -/
theorem extractAmounts_inv (nerMoney : String → List ℚ) (q : String) :
    ((extractAmounts nerMoney q).amountMin = none ∧
      (extractAmounts nerMoney q).amountMax = none) ∨
    (∃ lo hi, (extractAmounts nerMoney q).amountMin = some lo ∧
      (extractAmounts nerMoney q).amountMax = some hi ∧ lo ≤ hi) := by
  unfold extractAmounts
  dsimp only
  split
  · left
    exact ⟨rfl, rfl⟩
  · rename_i hne
    split
    · left
      exact ⟨rfl, rfl⟩
    · rename_i u us hsort
      have hsorted : List.Sorted (· ≤ ·) (u :: us) :=
        hsort ▸ List.sorted_insertionSort _ _
      have hlast : u ≤ (u :: us).getLast (List.cons_ne_nil u us) :=
        sortedHeadRel le_refl hsorted _ (List.getLast_mem (List.cons_ne_nil u us))
      have hupos : 0 < u := by
        have humem : u ∈ collectedAmounts nerMoney q := by
          have : u ∈ u :: us := List.mem_cons_self u us
          rw [← hsort, List.mem_insertionSort, mem_dedupFirst] at this
          exact this
        exact collectedAmounts_pos nerMoney q u humem
      right
      split
      · exact ⟨_, _, rfl, rfl, hlast⟩
      · split
        · refine ⟨_, _, rfl, rfl, ?_⟩
          apply max_le
          · linarith
          · linarith
        · exact ⟨_, _, rfl, rfl, hlast⟩

/-! ### C8: range invariants of the merged figures -/

theorem preprocessQuery_dates (now : JsNow) (o : PreprocessOracles) (q : String) :
    ((preprocessQuery now o q).dateFrom = none ∧ (preprocessQuery now o q).dateTo = none) ∨
    (∃ a b, (preprocessQuery now o q).dateFrom = some a ∧
      (preprocessQuery now o q).dateTo = some b ∧ SDate.le a b) := by
  unfold preprocessQuery
  dsimp only
  split
  · left
    exact ⟨rfl, rfl⟩
  · exact extractDates_inv now o.chronoParse (jsToLower (jsTrim q))

theorem preprocessQuery_amounts (now : JsNow) (o : PreprocessOracles) (q : String) :
    ((preprocessQuery now o q).amountMin = none ∧ (preprocessQuery now o q).amountMax = none) ∨
    (∃ lo hi, (preprocessQuery now o q).amountMin = some lo ∧
      (preprocessQuery now o q).amountMax = some hi ∧ lo ≤ hi) := by
  unfold preprocessQuery
  dsimp only
  split
  · left
    exact ⟨rfl, rfl⟩
  · exact extractAmounts_inv o.nerMoney _

/-- **C8 (counterexample).**  The claim fails as stated: with an empty
query (the preprocessor derives nothing) and caller filters
`amountMin = 2, amountMax = 1`, the merged figures the search uses are
exactly that inverted range — the orchestrator never clamps caller
filters. -/
theorem c8_counterexample :
    ¬ (∀ (now : JsNow) (o : PreprocessOracles) (q : String) (f : SearchFilters),
      (∀ a b, (mergeFigures (preprocessQuery now o q) f).dateFrom = some a →
          (mergeFigures (preprocessQuery now o q) f).dateTo = some b → SDate.le a b) ∧
      (∀ lo hi, (mergeFigures (preprocessQuery now o q) f).amountMin = some lo →
          (mergeFigures (preprocessQuery now o q) f).amountMax = some hi → lo ≤ hi)) := by
  intro h
  have h2 := (h ⟨2026, 9, 11, 6⟩ ⟨fun _ => [], fun _ => [], fun _ => [], fun _ => []⟩ ""
      { amountMin := some 2, amountMax := some 1 }).2 2 1 rfl rfl
  norm_num at h2

/-- **C8 (amended).**  The preprocessor-derived figures are never inverted
(`dateFrom ≤ dateTo`, `amountMin ≤ amountMax` whenever both are set), and
the merged figures satisfy the same invariant whenever the caller's own
filters do; an inverted caller range with no preprocessor figures passes
through unclamped. -/
theorem c8_range_invariants (now : JsNow) (o : PreprocessOracles) (q : String)
    (f : SearchFilters) :
    (∀ a b, (preprocessQuery now o q).dateFrom = some a →
        (preprocessQuery now o q).dateTo = some b → SDate.le a b) ∧
    (∀ lo hi, (preprocessQuery now o q).amountMin = some lo →
        (preprocessQuery now o q).amountMax = some hi → lo ≤ hi) ∧
    ((∀ a b, f.dateFrom = some a → f.dateTo = some b → SDate.le a b) →
      ∀ a b, (mergeFigures (preprocessQuery now o q) f).dateFrom = some a →
        (mergeFigures (preprocessQuery now o q) f).dateTo = some b → SDate.le a b) ∧
    ((∀ lo hi, f.amountMin = some lo → f.amountMax = some hi → lo ≤ hi) →
      ∀ lo hi, (mergeFigures (preprocessQuery now o q) f).amountMin = some lo →
        (mergeFigures (preprocessQuery now o q) f).amountMax = some hi → lo ≤ hi) := by
  refine ⟨?_, ?_, ?_, ?_⟩
  · intro a b ha hb
    rcases preprocessQuery_dates now o q with ⟨h1, _⟩ | ⟨a2, b2, h1, h2, hle⟩
    · rw [h1] at ha
      cases ha
    · rw [h1] at ha
      rw [h2] at hb
      cases ha
      cases hb
      exact hle
  · intro lo hi hlo hhi
    rcases preprocessQuery_amounts now o q with ⟨h1, _⟩ | ⟨a2, b2, h1, h2, hle⟩
    · rw [h1] at hlo
      cases hlo
    · rw [h1] at hlo
      rw [h2] at hhi
      cases hlo
      cases hhi
      exact hle
  · intro hc a b ha hb
    rcases preprocessQuery_dates now o q with ⟨h1, h2⟩ | ⟨a2, b2, h1, h2, hle⟩
    · rw [show (mergeFigures (preprocessQuery now o q) f).dateFrom = f.dateFrom by
        simp [mergeFigures, h1]] at ha
      rw [show (mergeFigures (preprocessQuery now o q) f).dateTo = f.dateTo by
        simp [mergeFigures, h2]] at hb
      exact hc a b ha hb
    · rw [show (mergeFigures (preprocessQuery now o q) f).dateFrom = some a2 by
        simp [mergeFigures, h1]] at ha
      rw [show (mergeFigures (preprocessQuery now o q) f).dateTo = some b2 by
        simp [mergeFigures, h2]] at hb
      cases ha
      cases hb
      exact hle
  · intro hc lo hi hlo hhi
    rcases preprocessQuery_amounts now o q with ⟨h1, h2⟩ | ⟨a2, b2, h1, h2, hle⟩
    · rw [show (mergeFigures (preprocessQuery now o q) f).amountMin = f.amountMin by
        simp [mergeFigures, h1]] at hlo
      rw [show (mergeFigures (preprocessQuery now o q) f).amountMax = f.amountMax by
        simp [mergeFigures, h2]] at hhi
      exact hc lo hi hlo hhi
    · rw [show (mergeFigures (preprocessQuery now o q) f).amountMin = some a2 by
        simp [mergeFigures, h1]] at hlo
      rw [show (mergeFigures (preprocessQuery now o q) f).amountMax = some b2 by
        simp [mergeFigures, h2]] at hhi
      cases hlo
      cases hhi
      exact hle

/-- Witness for the amended C8 at concrete inputs: the preprocessor's range
for `"between 1000 and 2000"` is well ordered, and a caller-ordered range
stays ordered through the merge of an empty query. -/
theorem c8_range_invariants_witness :
    ((1000 : ℚ) ≤ 2000) ∧
    ((2 : ℚ) ≤ 3) := by
  constructor
  · have h := (c8_range_invariants ⟨2026, 9, 11, 6⟩
      ⟨fun _ => [], fun _ => [], fun _ => [], fun _ => []⟩
      "between 1000 and 2000" {}).2.1 1000 2000 (by decide) (by decide)
    exact h
  · have h := (c8_range_invariants ⟨2026, 9, 11, 6⟩
      ⟨fun _ => [], fun _ => [], fun _ => [], fun _ => []⟩ ""
      { amountMin := some 2, amountMax := some 3 }).2.2.2
      (by intro lo hi hlo hhi; cases hlo; cases hhi; norm_num) 2 3 rfl rfl
    exact h

/-! ### C10: blank input leaves the corrector and its cache untouched -/

/-- **C10.**  For every empty or whitespace-only input, `correctQuery`
returns the input unchanged and the vocabulary cache state (vendor list,
product list, Fuse indexes, last-refresh timestamp) unmodified — the early
return fires before the cache refresh, for every oracle and every prior
state. -/
theorem c10_correctQuery_blank (o : FuzzyOracles) (now : Int) (st : CacheState) (q : String)
    (h : jsTrim q = "") :
    correctQuery o now st q = (q, st) := by
  unfold correctQuery
  rw [if_pos h]

/-- Witness for C10: three spaces in, three spaces out, state untouched. -/
theorem c10_correctQuery_blank_witness :
    jsTrim "   " = "" ∧
    correctQuery ⟨.ok [], .ok [], fun _ _ => [], fun _ => .ok []⟩ 0
        ⟨[], [], none, none, none⟩ "   " = ("   ", ⟨[], [], none, none, none⟩) :=
  ⟨by decide, c10_correctQuery_blank _ 0 _ "   " (by decide)⟩

/-! ### C5: upstream failure semantics -/

theorem strLengthNeZero {s : String} (h : s ≠ "") : s.length ≠ 0 := by
  intro h0
  apply h
  cases s with
  | mk data =>
    have hd : data = [] := List.eq_nil_of_length_eq_zero h0
    rw [hd]

/-- **C5 (counterexample).**  The claim fails as stated: with the store
failing and the embedding succeeding, the semantic search does NOT
propagate an error — the source catches the store failure and returns an
empty OK result. -/
theorem c5_counterexample :
    ¬ (∀ (P : String → PreprocessedQuery) (emb : String → Except String (List ℚ))
        (db : Except String (List InvoiceRow)) (dist : List ℚ → List ℚ → ℚ)
        (q : String) (f : SearchFilters),
        jsTrim (P q).normalizedQuery ≠ "" →
        ((∃ e, emb (jsTrim (P q).normalizedQuery) = .error e) ∨ (∃ e, db = .error e)) →
        ∃ msg, (semanticSearch P emb db dist q f).1 = .error msg) := by
  intro h
  obtain ⟨msg, hmsg⟩ := h (fun _ => { normalizedQuery := "laptop" }) (fun _ => .ok [1])
    (.error "store down") (fun _ _ => 0) "laptop invoices" {} (by decide)
    (Or.inr ⟨"store down", rfl⟩)
  have hok : (semanticSearch (fun _ => { normalizedQuery := "laptop" }) (fun _ => .ok [1])
      (.error "store down") (fun _ _ => 0) "laptop invoices" {}).1 = .ok [] := rfl
  rw [hok] at hmsg
  exact Except.noConfusion hmsg

/-- **C5 (amended).**  During a search with semantic content, an
embedding-gateway failure propagates as the search's failure, while a
store-query failure is caught and yields an empty OK result — in neither
case is a partial list returned. -/
theorem c5_failure_semantics (P : String → PreprocessedQuery)
    (emb : String → Except String (List ℚ)) (db : Except String (List InvoiceRow))
    (dist : List ℚ → List ℚ → ℚ) (q : String) (f : SearchFilters)
    (hsem : jsTrim (P q).normalizedQuery ≠ "") :
    (∀ e, emb (jsTrim (P q).normalizedQuery) = .error e →
      (semanticSearch P emb db dist q f).1 = .error e) ∧
    (∀ qe err, emb (jsTrim (P q).normalizedQuery) = .ok qe → db = .error err →
      (semanticSearch P emb db dist q f).1 = .ok []) := by
  have hbne : ((jsTrim (P q).normalizedQuery).length != 0) = true := by
    simpa [bne_iff_ne] using strLengthNeZero hsem
  constructor
  · intro e he
    unfold semanticSearch
    dsimp only
    rw [hbne, he]
    simp
  · intro qe err he hdb
    unfold semanticSearch
    dsimp only
    rw [hbne, he, hdb]
    simp

/-- Witness for C5 (amended) at concrete inputs: a failing gateway fails
the search; a failing store yields an empty OK result. -/
theorem c5_failure_semantics_witness :
    (semanticSearch (fun _ => { normalizedQuery := "laptop" }) (fun _ => .error "gateway down")
        (.ok []) (fun _ _ => 0) "q" {}).1 = .error "gateway down" ∧
    (semanticSearch (fun _ => { normalizedQuery := "laptop" }) (fun _ => .ok [1])
        (.error "store down") (fun _ _ => 0) "q" {}).1 = .ok [] := by
  constructor
  · exact (c5_failure_semantics _ _ _ _ "q" {} (by decide)).1 "gateway down" rfl
  · exact (c5_failure_semantics _ _ _ _ "q" {} (by decide)).2 [1] "store down" rfl rfl

/-! ### C1: ranking and truncation of the semantic path -/

/-- **C1.**  For every query whose normalized residual text is nonempty,
with the embedding gateway and the store succeeding, the search returns OK
with exactly the filter-matching rows scored by `1 − cosineDistance`,
sorted by similarity descending client-side and truncated to the limit:
the list's length is at most `filters.limit` (default 20, a falsy zero
defaulting likewise), it is ordered by non-increasing `similarityScore`,
and every element arises from a stored row passing the non-similarity
predicates with score `1 − dist(queryEmbedding, rowEmbedding)`. -/
theorem c1_semantic_search_ranking (P : String → PreprocessedQuery)
    (emb : String → Except String (List ℚ)) (rows : List InvoiceRow)
    (dist : List ℚ → List ℚ → ℚ) (q : String) (f : SearchFilters) (qe : List ℚ)
    (hemb : emb (jsTrim (P q).normalizedQuery) = .ok qe)
    (hsem : jsTrim (P q).normalizedQuery ≠ "") :
    ∃ l : List SearchResult,
      (semanticSearch P emb (.ok rows) dist q f).1 = .ok l ∧
      l = ((List.insertionSort simDesc
        (simRows dist qe (mergeFigures (P q) f) rows)).take (effLimit f)).map rowToResult ∧
      l.length ≤ effLimit f ∧
      List.Pairwise (fun a b => b.similarityScore ≤ a.similarityScore) l ∧
      (∀ x ∈ l, ∃ r e, r ∈ rows ∧ r.embedding = some e ∧
        rowMatches (mergeFigures (P q) f) r = true ∧ x.similarityScore = 1 - dist qe e) := by
  have hbne : ((jsTrim (P q).normalizedQuery).length != 0) = true := by
    simpa [bne_iff_ne] using strLengthNeZero hsem
  refine ⟨((List.insertionSort simDesc
    (simRows dist qe (mergeFigures (P q) f) rows)).take (effLimit f)).map rowToResult,
    ?_, rfl, ?_, ?_, ?_⟩
  · unfold semanticSearch
    dsimp only
    rw [hbne, hemb]
    simp
  · rw [List.length_map, List.length_take]
    exact min_le_left _ _
  · have hsorted : List.Sorted simDesc
        (List.insertionSort simDesc (simRows dist qe (mergeFigures (P q) f) rows)) :=
      List.sorted_insertionSort simDesc _
    have htake : List.Pairwise simDesc
        ((List.insertionSort simDesc
          (simRows dist qe (mergeFigures (P q) f) rows)).take (effLimit f)) :=
      List.Pairwise.sublist (List.take_sublist _ _) hsorted
    rw [List.pairwise_map]
    exact htake.imp fun hp => hp
  · intro x hx
    obtain ⟨p, hp, rfl⟩ := List.mem_map.1 hx
    have hp2 : p ∈ List.insertionSort simDesc
        (simRows dist qe (mergeFigures (P q) f) rows) :=
      List.take_subset _ _ hp
    rw [List.mem_insertionSort] at hp2
    obtain ⟨r, hr, hfr⟩ := List.mem_filterMap.1 hp2
    replace hfr : (match r.embedding with
        | none => none
        | some e => if rowMatches (mergeFigures (P q) f) r = true
            then some (r, 1 - dist qe e) else none) = some p := hfr
    rcases hre : r.embedding with _ | e
    · rw [hre] at hfr
      exact Option.noConfusion hfr
    · rw [hre] at hfr
      by_cases hm : rowMatches (mergeFigures (P q) f) r = true
      · replace hfr : (if rowMatches (mergeFigures (P q) f) r = true
            then some (r, 1 - dist qe e) else none) = some p := hfr
        rw [if_pos hm] at hfr
        cases hfr
        exact ⟨r, e, hr, hre, hm, rfl⟩
      · replace hfr : (if rowMatches (mergeFigures (P q) f) r = true
            then some (r, 1 - dist qe e) else none) = some p := hfr
        rw [if_neg hm] at hfr
        exact Option.noConfusion hfr

/-- Witness for C1: two stored rows, a constant-distance store operator; the
search returns both rows OK, within the default limit and sorted. -/
theorem c1_semantic_search_ranking_witness :
    ∃ l : List SearchResult,
      (semanticSearch (fun _ => { normalizedQuery := "laptop" }) (fun _ => .ok [1])
        (.ok [⟨1, "INV1", ⟨2024, 0, 5⟩, 1, some "V1", none, none, none, 100, some [1]⟩,
              ⟨2, "INV2", ⟨2024, 1, 6⟩, 1, some "V2", none, none, none, 200, some [2]⟩])
        (fun _ _ => 0) "laptop invoices" {}).1 = .ok l ∧
      l = ((List.insertionSort simDesc
        (simRows (fun _ _ => 0) [1]
          (mergeFigures ((fun _ : String => { normalizedQuery := "laptop" }) "laptop invoices") {})
          [⟨1, "INV1", ⟨2024, 0, 5⟩, 1, some "V1", none, none, none, 100, some [1]⟩,
           ⟨2, "INV2", ⟨2024, 1, 6⟩, 1, some "V2", none, none, none, 200, some [2]⟩])).take
            (effLimit {})).map rowToResult ∧
      l.length ≤ effLimit {} ∧
      List.Pairwise (fun a b => b.similarityScore ≤ a.similarityScore) l ∧
      (∀ x ∈ l, ∃ r e,
        r ∈ [⟨1, "INV1", ⟨2024, 0, 5⟩, 1, some "V1", none, none, none, 100, some [1]⟩,
             ⟨2, "INV2", ⟨2024, 1, 6⟩, 1, some "V2", none, none, none, 200, some [2]⟩] ∧
        r.embedding = some e ∧
        rowMatches (mergeFigures ((fun _ : String =>
          { normalizedQuery := "laptop" }) "laptop invoices") {}) r = true ∧
        x.similarityScore = 1 - (fun _ _ : List ℚ => (0 : ℚ)) [1] e) :=
  c1_semantic_search_ranking (fun _ => { normalizedQuery := "laptop" }) (fun _ => .ok [1])
    _ (fun _ _ => 0) "laptop invoices" {} [1] rfl (by decide)

end PgvectorBackend
